import Mathlib

/-!
Verification of the memory allocator in src/src/mem_alloc.c.

The heap is modelled at word granularity: a block is a header word, a list
of interior payload words and a footer word.  The block decomposition of
the arena is the one obtained by walking the heap from heap_start using
the header sizes, exactly as the C code (and its show_heap walker) does.
All sizes and addresses are natural numbers; size_t arithmetic that can
wrap is taken modulo 2^64 explicitly.
-/

namespace MemAlloc

/-- sizeof(size_t) on the target platform; size of a header or footer. -/
def WORD : Nat := 8

/-- MIN_PAYLOAD = 2 * WORD_SIZE. -/
def MIN_PAYLOAD : Nat := 16

/-- MIN_SIZE = 4 * WORD_SIZE, the minimum total size of a block. -/
def MIN_SIZE : Nat := 32

/-- 2^64, the modulus of size_t arithmetic. -/
def U64 : Nat := 2 ^ 64

/-- PTRDIFF_MAX on the target platform. -/
def PTRDIFF_MAX : Nat := 2 ^ 63 - 1

/-- The 64-bit value of the C expression ~temp with temp = (size_t)7. -/
def NOT7 : Nat := U64 - 8

/-- The 64-bit value of the C expression ~offset with offset = (size_t)1. -/
def NOT1 : Nat := U64 - 2

/-- adjust_size from mem_alloc.c: raise the payload to MIN_PAYLOAD, round up
to a multiple of 8 in size_t arithmetic, and add room for header and footer.
The additions wrap modulo 2^64 exactly as the C size_t arithmetic does. -/
def adjust_size (size : Nat) : Nat :=
  let s := if size < MIN_PAYLOAD then MIN_PAYLOAD else size
  (2 * WORD + (((s + 7) % U64) &&& NOT7)) % U64

/-! ### The heap model

A block is its header word, its interior words and its footer word; its
physical extent is 8 bytes per word.  The arena is the list of blocks in
address order, starting at the address stored in heap_start.  The intrusive
circular doubly-linked free list is represented by the list of block
addresses in next-pointer order from the head: free_list_add inserts at the
head (cons) and free_list_remove unlinks one node (erase); both are O(1)
pointer surgeries in the source whose effect on the traversal order is
exactly cons and erase. -/

structure Block where
  header : Nat
  mid : List Nat
  footer : Nat
deriving Repr, DecidableEq

/-- Physical extent of a block in bytes (8 bytes per word). -/
def ext (b : Block) : Nat := 8 * (2 + b.mid.length)

def sizeSum (bs : List Block) : Nat := (bs.map ext).sum

structure Heap where
  start : Nat
  blocks : List Block
  freeList : List Nat
deriving Repr, DecidableEq

/-- The current break: heap_start plus the bytes of all blocks. -/
def heapEnd (h : Heap) : Nat := h.start + sizeSum h.blocks

/-- The word of a block at word index k (0 is the header, the last index is
the footer). -/
def wordAt (b : Block) (k : Nat) : Nat :=
  if k = 0 then b.header
  else if k ≤ b.mid.length then b.mid.getD (k - 1) 0
  else b.footer

def setWord (b : Block) (k : Nat) (v : Nat) : Block :=
  if k = 0 then { b with header := v }
  else if k ≤ b.mid.length then { b with mid := b.mid.set (k - 1) v }
  else { b with footer := v }

/-- Read the size_t at byte offset r from heap_start.  Reads below the break
that are not 8-byte aligned are outside the model (none). -/
def readWord : List Block → Nat → Option Nat
  | [], _ => none
  | b :: rest, r =>
    if r < ext b then (if r % 8 = 0 then some (wordAt b (r / 8)) else none)
    else readWord rest (r - ext b)

/-- Write the size_t at byte offset r from heap_start. -/
def writeWord : List Block → Nat → Nat → Option (List Block)
  | [], _, _ => none
  | b :: rest, r, v =>
    if r < ext b then (if r % 8 = 0 then some (setWord b (r / 8) v :: rest) else none)
    else (writeWord rest (r - ext b) v).map (b :: ·)

/-- Apply a surgery f to the tail of the block list that starts at byte
offset r.  The offset must be a block boundary; the source reaches these
spots by pointer arithmetic from block headers. -/
def modAtP {α : Type} : List Block → Nat →
    (List Block → Option (List Block × α)) → Option (List Block × α)
  | bs, 0, f => f bs
  | [], _ + 1, _ => none
  | b :: rest, r, f =>
    if r < ext b then none
    else (modAtP rest (r - ext b) f).map (fun p => (b :: p.1, p.2))

def modAt (bs : List Block) (r : Nat) (f : List Block → Option (List Block)) :
    Option (List Block) :=
  (modAtP bs r (fun tl => (f tl).map (fun out => (out, ())))).map (·.1)

/-! ### find_free_block -/

/-- The do-while loop of find_free_block: scan the circular list once from
the head, keeping the first-encountered smallest block whose header is at
least the requested size.  best carries the candidate address and its
header, matching the pointer dereferences of the source. -/
def ffb_loop (bs : List Block) (start size : Nat) :
    List Nat → Option (Nat × Nat) → Option (Option (Nat × Nat))
  | [], best => some best
  | a :: rest, best =>
    if a < start then none
    else
      match readWord bs (a - start) with
      | none => none
      | some hd =>
        let best' :=
          if size ≤ hd then
            match best with
            | none => some (a, hd)
            | some (_, bh) => if hd < bh then some (a, hd) else best
          else best
        ffb_loop bs start size rest best'

def find_free_block (h : Heap) (size : Nat) : Option (Option (Nat × Nat)) :=
  ffb_loop h.blocks h.start size h.freeList none

/-! ### mem_alloc -/

/-- Lines 351-357 of mem_alloc.c: size |= 1, then the header at the block
base and the footer at base + (size & ~1) - WORD are written.  The footer
write must land on the last word of the block at the base, which is the
case exactly when (size | 1) & ~1 equals the physical extent. -/
def markAt (bs : List Block) (r size : Nat) : Option (List Block) :=
  modAt bs r fun
    | [] => none
    | b :: rest =>
      if (size ||| 1) &&& NOT1 = ext b then
        some ({ b with header := size ||| 1, footer := size ||| 1 } :: rest)
      else none

/-- Lines 336-344 of mem_alloc.c: carve the remaining space out of the found
block by writing a header and footer for it at offset size.  The stale word
at the end of the first part is overwritten by the subsequent marking. -/
def splitAt (bs : List Block) (r size remain : Nat) : Option (List Block) :=
  modAt bs r fun
    | [] => none
    | b :: rest =>
      if ext b = size + remain ∧ 8 ∣ size ∧ 16 ≤ size ∧ 8 ∣ remain ∧ 16 ≤ remain then
        some (⟨b.header, b.mid.take (size / 8 - 2), b.mid.getD (size / 8 - 2) 0⟩ ::
              ⟨remain, b.mid.drop (size / 8), remain⟩ :: rest)
      else none

/-- mem_alloc.  The program break extension by sbrk is modelled as always
succeeding (a failing sbrk returns NULL with no state change and is not
exercised by any claim).  The overall result is none when an execution
leaves the model (metadata writes at addresses that are not the matching
block boundaries); some (none, h) is a NULL return. -/
def mem_alloc (h : Heap) (size0 : Nat) : Option (Option Nat × Heap) :=
  if size0 = 0 then some (none, h)
  else
    let size := adjust_size size0
    if PTRDIFF_MAX < size then some (none, h)
    else
      match find_free_block h size with
      | none => none
      | some none =>
        if 8 ∣ size ∧ 16 ≤ size then
          let bs1 := h.blocks ++ [⟨0, List.replicate (size / 8 - 2) 0, 0⟩]
          let r := sizeSum h.blocks
          (markAt bs1 r size).map fun bs2 =>
            (some (h.start + r + WORD), ⟨h.start, bs2, h.freeList⟩)
        else none
      | some (some (a, hdr)) =>
        if a < h.start then none
        else
          let fl1 := h.freeList.erase a
          let r := a - h.start
          let remain := hdr - size
          if MIN_SIZE ≤ remain then
            (splitAt h.blocks r size remain).bind fun bs1 =>
              (markAt bs1 r size).map fun bs2 =>
                (some (a + WORD), ⟨h.start, bs2, (a + size) :: fl1⟩)
          else
            (markAt h.blocks r hdr).map fun bs2 =>
              (some (a + WORD), ⟨h.start, bs2, fl1⟩)

/-! ### mem_free -/

inductive FreeResult where
  | invalidPtr
  | doubleFree
  | ok (h : Heap)
  | err
deriving Repr, DecidableEq

/-- Lines 388-394 of mem_free: clear the allocation bit and write header and
footer.  The footer write at temp + size - WORD must be the last word of the
block at temp. -/
def clearAt (bs : List Block) (r size : Nat) : Option (List Block) :=
  modAt bs r fun
    | [] => none
    | b :: rest => if ext b = size then some (⟨size, b.mid, size⟩ :: rest) else none

/-- coalesce_right from mem_alloc.c, acting on the blocks only; returns the
extent of the absorbed right neighbor when a merge happened so that the
caller can perform the free-list surgery by address. -/
def coalesce_right (bs : List Block) (r : Nat) :
    Option (List Block × Option Nat) :=
  modAtP bs r fun
    | b :: b2 :: rest =>
      if b.header ≠ ext b then none
      else
        let next_size := b2.header
        if next_size &&& 1 = 0 then
          let merged := (next_size + b.header) % U64
          if merged &&& NOT1 = ext b + ext b2 then
            some (⟨merged, b.mid ++ b.footer :: b2.header :: b2.mid, merged⟩ :: rest,
                  some (ext b))
          else none
        else some (b :: b2 :: rest, none)
    | _ => none

/-- coalesce_left from mem_alloc.c: read the previous block's footer at
temp - WORD, and if its bit is clear merge into the block based prev_size
bytes below.  Returns the (possibly moved) block base and whether a merge
happened. -/
def coalesce_left (bs : List Block) (r : Nat) :
    Option (Nat × List Block × Bool) :=
  match readWord bs (r - WORD) with
  | none => none
  | some psz =>
    if psz &&& 1 = 0 then
      if psz ≤ r then
        (modAtP bs (r - psz) fun
          | p :: b :: rest =>
            if ext p = psz then
              let merged := (psz + b.header) % U64
              if merged &&& NOT1 = ext p + ext b then
                some (⟨merged, p.mid ++ p.footer :: b.header :: b.mid, merged⟩ :: rest,
                      ())
              else none
            else none
          | _ => none).map fun pr => (r - psz, pr.1, true)
      else none
    else some (r, bs, false)

/-- sbrk(-size) at the end of mem_free: the last size bytes of the arena are
returned to the OS; the block at r must be the trailing block. -/
def shrinkAt (bs : List Block) (r size : Nat) : Option (List Block) :=
  modAt bs r fun
    | [b] => if ext b = size then some [] else none
    | _ => none

/-- Lines 396-401 of mem_free: the right-coalescing attempt, guarded by
temp + size < heap_end, followed by the re-read of the size at temp; on a
merge the free list loses the absorbed right neighbor and gains the merged
block at its head (the insertion coalesce_right performs). -/
def rightPhase (start : Nat) (bs1 : List Block) (fl1 : List Nat) (r size : Nat) :
    Option (List Block × List Nat × Bool × Nat) :=
  if r + size < sizeSum bs1 then
    match coalesce_right bs1 r with
    | none => none
    | some (bs2, merged) =>
      match readWord bs2 r with
      | none => none
      | some sz2 =>
        match merged with
        | some extB =>
          some (bs2, (start + r) :: fl1.erase (start + r + extB), true, sz2)
        | none => some (bs2, fl1, false, sz2)
  else some (bs1, fl1, false, size)

/-- Lines 403-410 of mem_free: the left-coalescing attempt, guarded by
temp > heap_start; when a right merge already happened the block at temp is
first removed from the free list. -/
def leftPhase (start r : Nat) (bs2 : List Block) (fl2 : List Nat) (co1 : Bool)
    (sz1 : Nat) : Option (Nat × List Block × List Nat × Bool × Nat) :=
  if 0 < r then
    let fl3 := if co1 then fl2.erase (start + r) else fl2
    match coalesce_left bs2 r with
    | none => none
    | some (r2, bs3, co2) =>
      match readWord bs3 r2 with
      | none => none
      | some sz2 => some (r2, bs3, fl3, co1 || co2, sz2)
  else some (r, bs2, fl2, co1, sz1)

/-- Lines 412-427 of mem_free: insert into the free list only when no
coalescing happened, then shrink the arena when the block is trailing. -/
def finishPhase (start r3 : Nat) (bs3 : List Block) (fl3 : List Nat) (co : Bool)
    (sz3 : Nat) : FreeResult :=
  let fl4 := if co then fl3 else (start + r3) :: fl3
  if r3 + sz3 = sizeSum bs3 then
    match shrinkAt bs3 r3 sz3 with
    | none => .err
    | some bs4 => .ok ⟨start, bs4, (fl4.erase (start + r3))⟩
  else .ok ⟨start, bs3, fl4⟩

/-- Lines 396-427 of mem_free: the coalescing phase after the bit is
cleared, the free-list insertion, and the trailing-block arena shrink. -/
def freePhase2 (start : Nat) (bs1 : List Block) (fl1 : List Nat) (r size : Nat) :
    FreeResult :=
  match rightPhase start bs1 fl1 r size with
  | none => .err
  | some (bs2, fl2, co1, sz1) =>
    match leftPhase start r bs2 fl2 co1 sz1 with
    | none => .err
    | some (r3, bs3, fl3, co, sz3) => finishPhase start r3 bs3 fl3 co sz3

/-- mem_free from mem_alloc.c. -/
def mem_free (h : Heap) (ptr : Nat) : FreeResult :=
  if ptr ≤ h.start ∨ heapEnd h ≤ ptr then .invalidPtr
  else
    if ptr < h.start + WORD then .err
    else
      let r := ptr - WORD - h.start
      match readWord h.blocks r with
      | none => .err
      | some hd =>
        if hd &&& 1 = 0 then .doubleFree
        else
          let size := hd &&& NOT1
          match clearAt h.blocks r size with
          | none => .err
          | some bs1 => freePhase2 h.start bs1 h.freeList r size

/-! ### mem_resize and mem_alloc_clear -/

inductive ResizeResult where
  | fatal
  | err
  | ok (res : Option Nat) (h : Heap) (copied : Option (Nat × Nat))
deriving Repr, DecidableEq

/-- The word-by-word effect of memcpy(dst, src, n*8): memcpy copies in
increasing address order. -/
def copyWords (bs : List Block) (start src dst : Nat) : Nat → Option (List Block)
  | 0 => some bs
  | n + 1 =>
    if src < start ∨ dst < start then none
    else
      match readWord bs (src - start) with
      | none => none
      | some v =>
        match writeWord bs (dst - start) v with
        | none => none
        | some bs2 => copyWords bs2 start (src + WORD) (dst + WORD) n

/-- mem_resize from mem_alloc.c.  copied records the source address and the
byte count of the memcpy performed; the copy itself is modelled at word
granularity (the final size mod 8 bytes land inside one further word). -/
def mem_resize (h : Heap) (ptr size : Nat) : ResizeResult :=
  if size = 0 ∧ ptr ≠ 0 then
    match mem_free h ptr with
    | .ok h1 => .ok none h1 none
    | .err => .err
    | _ => .fatal
  else
    match mem_alloc h size with
    | none => .err
    | some (none, h1) => .ok none h1 none
    | some (some np, h1) =>
      if ptr ≠ 0 then
        match copyWords h1.blocks h1.start ptr np (size / WORD) with
        | none => .err
        | some bs2 =>
          match mem_free ⟨h1.start, bs2, h1.freeList⟩ ptr with
          | .ok h2 => .ok (some np) h2 (some (ptr, size))
          | .err => .err
          | _ => .fatal
      else .ok (some np) h1 none

/-- The word-by-word effect of memset(dst, 0, n*8). -/
def zeroWords (bs : List Block) (start dst : Nat) : Nat → Option (List Block)
  | 0 => some bs
  | n + 1 =>
    if dst < start then none
    else
      match writeWord bs (dst - start) 0 with
      | none => none
      | some bs2 => zeroWords bs2 start (dst + WORD) n

/-- mem_alloc_clear from mem_alloc.c: the product n * size is computed in
size_t arithmetic, with no overflow check, and passed to mem_alloc; memset
then zeroes that same wrapped byte count.  The returned pair records the
memset target and byte count. -/
def mem_alloc_clear (h : Heap) (n sz : Nat) :
    Option (Option Nat × Heap × Option (Nat × Nat)) :=
  let prod := (n * sz) % U64
  match mem_alloc h prod with
  | none => none
  | some (none, h1) => some (none, h1, none)
  | some (some p, h1) =>
    match zeroWords h1.blocks h1.start p (prod / WORD) with
    | none => none
    | some bs2 => some (some p, ⟨h1.start, bs2, h1.freeList⟩, some (p, prod))

/-- The state before the first call to mem_alloc initializes the arena:
heap_start = heap_end = the initial break. -/
def initHeap (start : Nat) : Heap := ⟨start, [], []⟩

/-! ### Observations on heap states -/

/-- The addresses of the blocks of the arena, in address order. -/
def blockAddrs (start : Nat) : List Block → List Nat
  | [] => []
  | b :: rest => start :: blockAddrs (start + ext b) rest

/-- A block whose allocation bit is clear. -/
def isFreeBlock (b : Block) : Bool := b.header &&& 1 = 0

/-- The addresses of the blocks whose allocation bit is clear. -/
def freeBlockAddrs (h : Heap) : List Nat :=
  (blockAddrs h.start h.blocks).zip h.blocks
    |>.filterMap (fun p => if isFreeBlock p.2 then some p.1 else none)

/-- Total bytes of the blocks whose allocation bit is clear. -/
def freeBytes (h : Heap) : Nat :=
  ((h.blocks.filter isFreeBlock).map ext).sum

/-- The number of blocks in the arena. -/
def blockCount (h : Heap) : Nat := h.blocks.length

/-- Usable payload bytes of a block: its size minus header and footer. -/
def usable (b : Block) : Nat := ext b - 2 * WORD

/-! ### Concrete scenario states

The runs below start from a fresh arena at break 1024 and are produced by
the modelled operations themselves (each equation is checked by the
kernel). -/

def hInit : Heap := initHeap 1024

/-- After mem_alloc 24 (adjusted size 40): one allocated block. -/
def hA1 : Heap := ⟨1024, [⟨41, [0, 0, 0], 41⟩], []⟩

/-- After a second mem_alloc 24. -/
def hA2 : Heap := ⟨1024, [⟨41, [0, 0, 0], 41⟩, ⟨41, [0, 0, 0], 41⟩], []⟩

/-- After a third mem_alloc 24. -/
def hA3 : Heap :=
  ⟨1024, [⟨41, [0, 0, 0], 41⟩, ⟨41, [0, 0, 0], 41⟩, ⟨41, [0, 0, 0], 41⟩], []⟩

/-- After a fourth mem_alloc 24. -/
def hA4 : Heap :=
  ⟨1024, [⟨41, [0, 0, 0], 41⟩, ⟨41, [0, 0, 0], 41⟩, ⟨41, [0, 0, 0], 41⟩,
          ⟨41, [0, 0, 0], 41⟩], []⟩

/-- After releasing the third block (payload 1112). -/
def hB5 : Heap :=
  ⟨1024, [⟨41, [0, 0, 0], 41⟩, ⟨41, [0, 0, 0], 41⟩, ⟨40, [0, 0, 0], 40⟩,
          ⟨41, [0, 0, 0], 41⟩], [1104]⟩

/-- After then releasing the second block (payload 1072): it merged with its
right neighbor but the merged block is in no free list. -/
def hB6 : Heap :=
  ⟨1024, [⟨41, [0, 0, 0], 41⟩, ⟨80, [0, 0, 0, 40, 40, 0, 0, 0], 80⟩,
          ⟨41, [0, 0, 0], 41⟩], []⟩

/-- After mem_alloc 9 (adjusted size 32, usable payload 16). -/
def rs1 : Heap := ⟨1024, [⟨33, [0, 0], 33⟩], []⟩

/-- After a further mem_alloc 24. -/
def rs2 : Heap := ⟨1024, [⟨33, [0, 0], 33⟩, ⟨41, [0, 0, 0], 41⟩], []⟩

/-- After mem_resize of the first payload (1032) to 100 bytes: the copy into
the new block at 1096 dragged along the old block's footer (33), the
neighbor's header and footer (41) and the new block's own header (121). -/
def rs3 : Heap :=
  ⟨1024, [⟨32, [0, 0], 32⟩, ⟨41, [0, 0, 0], 41⟩,
          ⟨121, [0, 0, 33, 41, 0, 0, 0, 41, 121, 0, 0, 33, 0], 121⟩], [1024]⟩

/-- Reference shape of a best-fit scan outcome over a list of candidate
addresses with sizes given by f: the first-encountered address among those
of minimal qualifying size, none when nothing qualifies.  Used to
characterize the accumulator loop of find_free_block. -/
def bestFit (f : Nat → Nat) (size : Nat) : List Nat → Option Nat
  | [] => none
  | a :: rest =>
    match bestFit f size rest with
    | none => if size ≤ f a then some a else none
    | some w => if size ≤ f a ∧ f a ≤ f w then some a else some w

/-- How the running best of the scan combines with the best of the remaining
suffix: a later candidate only displaces the running best when strictly
smaller. -/
def mergeBest (f : Nat → Nat) : Option (Nat × Nat) → Option Nat → Option (Nat × Nat)
  | b, none => b
  | none, some w => some (w, f w)
  | some (ab, hb), some w => if f w < hb then some (w, f w) else some (ab, hb)

/-! ### Well-formed heap states

The invariants below hold of every state reachable through the engine and
are the hypotheses of the universally quantified theorems.  They are stated
with executable booleans so that witnesses can be checked by evaluation. -/

/-- No two address-adjacent blocks are both free (their headers equal their
extents). -/
def noAdjFreeB : List Block → Bool
  | [] => true
  | [_] => true
  | x :: y :: rest =>
    (!(x.header == ext x) || !(y.header == ext y)) && noAdjFreeB (y :: rest)

/-- The trailing block of the arena, when there is one, is allocated; a free
trailing block would have been returned to the OS by the shrink step of
mem_free. -/
def lastAllocB : List Block → Bool
  | [] => true
  | [b] => b.header == ext b + 1
  | _ :: rest => lastAllocB rest

/-- Byte offset r from heap_start is the base of a free block. -/
def baseFree : List Block → Nat → Bool
  | [], _ => false
  | b :: rest, r =>
    if r = 0 then b.header == ext b
    else if r < ext b then false
    else baseFree rest (r - ext b)

/-- Byte offset r from heap_start is the base of an allocated block. -/
def baseAlloc : List Block → Nat → Bool
  | [], _ => false
  | b :: rest, r =>
    if r = 0 then b.header == ext b + 1
    else if r < ext b then false
    else baseAlloc rest (r - ext b)

/-- The reachable-state invariant: every block's header encodes its physical
extent plus the allocation bit and is mirrored in the footer; no two
adjacent blocks are both free; the trailing block is allocated; every
free-list entry is the base address of a free block; the break sits at an
address at least one word above NULL; sizes stay far below the size_t
range. -/
def WF (h : Heap) : Prop :=
  (∀ b ∈ h.blocks, (b.header = ext b ∨ b.header = ext b + 1) ∧ b.footer = b.header) ∧
  noAdjFreeB h.blocks = true ∧
  lastAllocB h.blocks = true ∧
  (∀ a ∈ h.freeList, h.start ≤ a ∧ baseFree h.blocks (a - h.start) = true) ∧
  8 ≤ h.start ∧ h.start + sizeSum h.blocks ≤ 2 ^ 62

/-- The boundary-tag property: every block's header holds its size with the
allocation bit clear or set, and the footer repeats the header word. -/
def tagged (bs : List Block) : Prop :=
  ∀ b ∈ bs, (b.header = ext b ∨ b.header = ext b + 1) ∧ b.footer = b.header

/-! ### Bridge lemmas for the bit operations used by the source -/

theorem land_sub_pow {x : Nat} (k : Nat) (hk : k ≤ 64) (hx : x < 2 ^ 64) :
    x &&& (2 ^ 64 - 2 ^ k) = 2 ^ k * (x / 2 ^ k) := by
  have hke : k + (64 - k) = 64 := by omega
  have hmask : 2 ^ 64 - 2 ^ k = 2 ^ k * (2 ^ (64 - k) - 1) := by
    rw [Nat.mul_sub_one, ← Nat.pow_add, hke]
  apply Nat.eq_of_testBit_eq
  intro j
  rw [Nat.testBit_and, hmask, Nat.testBit_mul_pow_two, Nat.testBit_mul_pow_two]
  rcases Nat.lt_or_ge j k with hj | hj
  · simp [Nat.not_le_of_lt hj]
  · have hdiv : x / 2 ^ k < 2 ^ (64 - k) := by
      apply Nat.div_lt_of_lt_mul
      calc x < 2 ^ 64 := hx
        _ = 2 ^ k * 2 ^ (64 - k) := by rw [← Nat.pow_add, hke]
    have hxj : x.testBit j = (x / 2 ^ k).testBit (j - k) := by
      rw [← Nat.shiftRight_eq_div_pow, Nat.testBit_shiftRight]
      congr 1
      omega
    rcases Nat.lt_or_ge (j - k) (64 - k) with hjk | hjk
    · simp [hj, hjk, hxj, Nat.testBit_two_pow_sub_one]
    · have : (x / 2 ^ k).testBit (j - k) = false :=
        Nat.testBit_lt_two_pow (Nat.lt_of_lt_of_le hdiv (Nat.pow_le_pow_right (by omega) hjk))
      simp [hj, hxj, this, Nat.testBit_two_pow_sub_one, Nat.not_lt_of_le hjk]

theorem land_NOT1 {x : Nat} (hx : x < U64) : x &&& NOT1 = 2 * (x / 2) := by
  have h := @land_sub_pow x 1 (by omega) hx
  simpa [NOT1, U64] using h

theorem land_NOT7 {x : Nat} (hx : x < U64) : x &&& NOT7 = 8 * (x / 8) := by
  have h := @land_sub_pow x 3 (by omega) hx
  simpa [NOT7, U64] using h

theorem land_NOT1_of_even {x : Nat} (hx : x < U64) (he : 2 ∣ x) :
    x &&& NOT1 = x := by
  rw [land_NOT1 hx, Nat.mul_div_cancel' he]

theorem lor_one_of_even {x : Nat} (he : 2 ∣ x) : x ||| 1 = x + 1 := by
  obtain ⟨a, ha⟩ := he
  have h := @Nat.mul_add_lt_is_or 1 1 (by omega) a
  subst ha
  simpa using h.symm

theorem land_one_of_even {x : Nat} (he : 2 ∣ x) : x &&& 1 = 0 := by
  obtain ⟨a, ha⟩ := he
  rw [Nat.and_one_is_mod]
  omega

theorem succ_land_one_of_even {x : Nat} (he : 2 ∣ x) : (x + 1) &&& 1 = 1 := by
  rw [Nat.and_one_is_mod]
  omega

theorem succ_land_NOT1_of_even {x : Nat} (hx : x + 1 < U64) (he : 2 ∣ x) :
    (x + 1) &&& NOT1 = x := by
  rw [land_NOT1 hx]
  omega

/-- For requests in the ordinary range, adjust_size is the familiar
16 + round-up-to-8 formula with no wraparound. -/
theorem adjust_size_eq {size : Nat} (h : size ≤ 2 ^ 62) :
    adjust_size size = 2 * WORD + 8 * ((max size MIN_PAYLOAD + 7) / 8) := by
  have hmax : max size MIN_PAYLOAD ≤ 2 ^ 62 := by
    simp only [MIN_PAYLOAD] at *
    omega
  have hm : max size MIN_PAYLOAD + 7 < U64 := by
    simp only [U64]
    have : (2:Nat) ^ 62 + 7 < 2 ^ 64 := by norm_num
    omega
  have hs : (if size < MIN_PAYLOAD then MIN_PAYLOAD else size) = max size MIN_PAYLOAD := by
    simp only [Nat.max_def]
    split <;> split <;> omega
  show (2 * WORD + (((if size < MIN_PAYLOAD then MIN_PAYLOAD else size) + 7) % U64 &&& NOT7))
      % U64 = _
  rw [hs, Nat.mod_eq_of_lt hm, land_NOT7 hm]
  apply Nat.mod_eq_of_lt
  have h8 : 8 * ((max size MIN_PAYLOAD + 7) / 8) ≤ max size MIN_PAYLOAD + 7 :=
    Nat.mul_div_le _ _
  simp only [U64, WORD] at *
  omega

/-! ### Toolkit: block-list arithmetic and surgery lemmas -/

theorem ext_pos (b : Block) : 16 ≤ ext b := by
  simp only [ext]
  omega

theorem ext_mod8 (b : Block) : ext b % 8 = 0 := by
  simp [ext, Nat.mul_mod_right]

theorem sizeSum_nil : sizeSum [] = 0 := rfl

theorem sizeSum_cons (b : Block) (bs : List Block) :
    sizeSum (b :: bs) = ext b + sizeSum bs := by
  simp [sizeSum]

theorem sizeSum_append (xs ys : List Block) :
    sizeSum (xs ++ ys) = sizeSum xs + sizeSum ys := by
  simp [sizeSum]

theorem sizeSum_mod8 (bs : List Block) : sizeSum bs % 8 = 0 := by
  induction bs with
  | nil => rfl
  | cons b rest ih => rw [sizeSum_cons, Nat.add_mod, ih, ext_mod8]

theorem modAtP_zero {α : Type} (bs : List Block)
    (f : List Block → Option (List Block × α)) : modAtP bs 0 f = f bs := by
  cases bs <;> rfl

theorem modAtP_cons_ge {α : Type} (b : Block) (bs : List Block) (r : Nat)
    (f : List Block → Option (List Block × α)) (hr : 0 < r) (hge : ext b ≤ r) :
    modAtP (b :: bs) r f =
      (modAtP bs (r - ext b) f).map (fun p => (b :: p.1, p.2)) := by
  match r, hr with
  | r + 1, _ => simp [modAtP, Nat.not_lt_of_le hge]

theorem modAtP_append {α : Type} (pre bs : List Block) (r : Nat)
    (f : List Block → Option (List Block × α)) :
    modAtP (pre ++ bs) (sizeSum pre + r) f =
      (modAtP bs r f).map (fun p => (pre ++ p.1, p.2)) := by
  induction pre with
  | nil =>
    rw [List.nil_append, sizeSum_nil, Nat.zero_add]
    cases modAtP bs r f <;> simp
  | cons b pre ih =>
    rw [List.cons_append, sizeSum_cons,
      modAtP_cons_ge b (pre ++ bs) (ext b + sizeSum pre + r) f
        (by have := ext_pos b; omega) (by omega)]
    have hsub : ext b + sizeSum pre + r - ext b = sizeSum pre + r := by omega
    rw [hsub, ih]
    cases modAtP bs r f <;> simp

theorem modAtP_eq_some {α : Type} {bs : List Block} {r : Nat}
    {f : List Block → Option (List Block × α)} {out : List Block × α}
    (h : modAtP bs r f = some out) :
    ∃ pre tail tl2, bs = pre ++ tail ∧ r = sizeSum pre ∧
      f tail = some (tl2, out.2) ∧ out.1 = pre ++ tl2 := by
  induction bs generalizing r out with
  | nil =>
    cases r with
    | zero =>
      refine ⟨[], [], out.1, rfl, rfl, ?_, rfl⟩
      rw [modAtP_zero] at h
      simpa using h
    | succ r => exact absurd h (by simp [modAtP])
  | cons b rest ih =>
    cases r with
    | zero =>
      refine ⟨[], b :: rest, out.1, rfl, rfl, ?_, rfl⟩
      rw [modAtP_zero] at h
      simpa using h
    | succ r =>
      rcases Nat.lt_or_ge (r + 1) (ext b) with hlt | hge
      · rw [show modAtP (b :: rest) (r + 1) f = none by simp [modAtP, hlt]] at h
        exact absurd h (by simp)
      · rw [modAtP_cons_ge b rest (r + 1) f (by omega) hge] at h
        obtain ⟨out', hout', hmap⟩ := Option.map_eq_some'.mp h
        obtain ⟨pre', tail', tl2', hbs, hr, hf, ho⟩ := ih hout'
        refine ⟨b :: pre', tail', tl2', by rw [List.cons_append, ← hbs], ?_, ?_, ?_⟩
        · rw [sizeSum_cons, ← hr]
          omega
        · rw [hf, ← hmap]
        · rw [← hmap, List.cons_append, ← ho]

theorem modAt_append (pre bs : List Block) (r : Nat)
    (f : List Block → Option (List Block)) :
    modAt (pre ++ bs) (sizeSum pre + r) f = (modAt bs r f).map (pre ++ ·) := by
  unfold modAt
  rw [modAtP_append]
  cases modAtP bs r (fun tl => (f tl).map (fun out => (out, ()))) <;> simp

theorem modAt_zero (bs : List Block) (f : List Block → Option (List Block)) :
    modAt bs 0 f = f bs := by
  unfold modAt
  rw [modAtP_zero]
  cases hf : f bs <;> simp [hf]

theorem modAt_eq_some {bs : List Block} {r : Nat}
    {f : List Block → Option (List Block)} {out : List Block}
    (h : modAt bs r f = some out) :
    ∃ pre tail tl2, bs = pre ++ tail ∧ r = sizeSum pre ∧
      f tail = some tl2 ∧ out = pre ++ tl2 := by
  unfold modAt at h
  obtain ⟨p, hp, hmap⟩ := Option.map_eq_some'.mp h
  obtain ⟨pre, tail, tl2, hbs, hr, hf, ho⟩ := modAtP_eq_some hp
  obtain ⟨ft, hft, hinj⟩ := Option.map_eq_some'.mp hf
  have hfe : ft = tl2 := congrArg Prod.fst hinj
  exact ⟨pre, tail, tl2, hbs, hr, hfe ▸ hft, by rw [← hmap, ho]⟩

theorem readWord_cons_ge (b : Block) (bs : List Block) (r : Nat)
    (hge : ext b ≤ r) : readWord (b :: bs) r = readWord bs (r - ext b) := by
  simp [readWord, Nat.not_lt_of_le hge]

theorem readWord_cons_lt (b : Block) (bs : List Block) (r : Nat)
    (hlt : r < ext b) :
    readWord (b :: bs) r = if r % 8 = 0 then some (wordAt b (r / 8)) else none := by
  simp [readWord, hlt]

theorem readWord_append (pre bs : List Block) (r : Nat) :
    readWord (pre ++ bs) (sizeSum pre + r) = readWord bs r := by
  induction pre with
  | nil => rw [List.nil_append, sizeSum_nil, Nat.zero_add]
  | cons b pre ih =>
    rw [List.cons_append, sizeSum_cons,
      readWord_cons_ge b (pre ++ bs) _ (by omega)]
    have hsub : ext b + sizeSum pre + r - ext b = sizeSum pre + r := by omega
    rw [hsub, ih]

theorem writeWord_cons_ge (b : Block) (bs : List Block) (r v : Nat)
    (hge : ext b ≤ r) :
    writeWord (b :: bs) r v = (writeWord bs (r - ext b) v).map (b :: ·) := by
  simp [writeWord, Nat.not_lt_of_le hge]

theorem writeWord_cons_lt (b : Block) (bs : List Block) (r v : Nat)
    (hlt : r < ext b) :
    writeWord (b :: bs) r v =
      if r % 8 = 0 then some (setWord b (r / 8) v :: bs) else none := by
  simp [writeWord, hlt]

theorem writeWord_append (pre bs : List Block) (r v : Nat) :
    writeWord (pre ++ bs) (sizeSum pre + r) v =
      (writeWord bs r v).map (pre ++ ·) := by
  induction pre with
  | nil =>
    rw [List.nil_append, sizeSum_nil, Nat.zero_add]
    cases writeWord bs r v <;> simp
  | cons b pre ih =>
    rw [List.cons_append, sizeSum_cons,
      writeWord_cons_ge b (pre ++ bs) _ v (by omega)]
    have hsub : ext b + sizeSum pre + r - ext b = sizeSum pre + r := by omega
    rw [hsub, ih]
    cases writeWord bs r v <;> simp

/-! ### Reads at block boundaries -/

theorem readWord_base (pre : List Block) (b : Block) (post : List Block) :
    readWord (pre ++ b :: post) (sizeSum pre) = some b.header := by
  rw [← Nat.add_zero (sizeSum pre), readWord_append,
    readWord_cons_lt _ _ _ (by have := ext_pos b; omega)]
  simp [wordAt]

theorem readWord_footer (pre : List Block) (b : Block) (post : List Block) :
    readWord (pre ++ b :: post) (sizeSum pre + (ext b - 8)) = some b.footer := by
  rw [readWord_append, readWord_cons_lt _ _ _ (by have := ext_pos b; omega)]
  have h8 : (ext b - 8) % 8 = 0 := by
    have := ext_mod8 b
    have := ext_pos b
    omega
  rw [if_pos h8]
  have he : ext b - 8 = 8 * (b.mid.length + 1) := by
    simp only [ext]
    omega
  have hk : (ext b - 8) / 8 = b.mid.length + 1 := by
    rw [he, Nat.mul_div_cancel_left _ (by norm_num)]
  rw [hk]
  simp only [wordAt, if_neg (by omega : ¬ b.mid.length + 1 = 0),
    if_neg (by omega : ¬ b.mid.length + 1 ≤ b.mid.length)]

theorem readWord_mid (pre : List Block) (b : Block) (post : List Block) (k : Nat)
    (hk : k < b.mid.length) :
    readWord (pre ++ b :: post) (sizeSum pre + 8 * (k + 1)) =
      some (b.mid.getD k 0) := by
  rw [readWord_append, readWord_cons_lt _ _ _ (by simp only [ext]; omega)]
  rw [if_pos (by omega), Nat.mul_div_cancel_left _ (by norm_num : 0 < 8)]
  simp only [wordAt, if_neg (by omega : ¬ k + 1 = 0),
    if_pos (by omega : k + 1 ≤ b.mid.length), Nat.add_sub_cancel]

/-! ### Unpacking the boolean invariants -/

theorem baseFree_elim {bs : List Block} {r : Nat} (h : baseFree bs r = true) :
    ∃ pre b post, bs = pre ++ b :: post ∧ r = sizeSum pre ∧ b.header = ext b := by
  induction bs generalizing r with
  | nil => simp [baseFree] at h
  | cons b rest ih =>
    by_cases h0 : r = 0
    · subst h0
      refine ⟨[], b, rest, rfl, rfl, ?_⟩
      simpa [baseFree] using h
    · rcases Nat.lt_or_ge r (ext b) with hlt | hge
      · simp [baseFree, h0, hlt] at h
      · rw [show baseFree (b :: rest) r = baseFree rest (r - ext b) by
          simp [baseFree, h0, Nat.not_lt_of_le hge]] at h
        obtain ⟨pre, x, post, hbs, hr, hx⟩ := ih h
        exact ⟨b :: pre, x, post, by rw [List.cons_append, hbs], by
          rw [sizeSum_cons]; omega, hx⟩

theorem baseAlloc_elim {bs : List Block} {r : Nat} (h : baseAlloc bs r = true) :
    ∃ pre b post, bs = pre ++ b :: post ∧ r = sizeSum pre ∧ b.header = ext b + 1 := by
  induction bs generalizing r with
  | nil => simp [baseAlloc] at h
  | cons b rest ih =>
    by_cases h0 : r = 0
    · subst h0
      refine ⟨[], b, rest, rfl, rfl, ?_⟩
      simpa [baseAlloc] using h
    · rcases Nat.lt_or_ge r (ext b) with hlt | hge
      · simp [baseAlloc, h0, hlt] at h
      · rw [show baseAlloc (b :: rest) r = baseAlloc rest (r - ext b) by
          simp [baseAlloc, h0, Nat.not_lt_of_le hge]] at h
        obtain ⟨pre, x, post, hbs, hr, hx⟩ := ih h
        exact ⟨b :: pre, x, post, by rw [List.cons_append, hbs], by
          rw [sizeSum_cons]; omega, hx⟩

theorem noAdjFreeB_tail {a : Block} {l : List Block}
    (h : noAdjFreeB (a :: l) = true) : noAdjFreeB l = true := by
  cases l with
  | nil => rfl
  | cons b l' =>
    rw [show noAdjFreeB (a :: b :: l') =
      ((!(a.header == ext a) || !(b.header == ext b)) && noAdjFreeB (b :: l'))
      from rfl] at h
    simp only [Bool.and_eq_true] at h
    exact h.2

theorem noAdjFreeB_pair {pre : List Block} {x y : Block} {post : List Block}
    (h : noAdjFreeB (pre ++ x :: y :: post) = true) :
    ¬(x.header = ext x ∧ y.header = ext y) := by
  induction pre with
  | nil =>
    rw [List.nil_append,
      show noAdjFreeB (x :: y :: post) =
        ((!(x.header == ext x) || !(y.header == ext y)) && noAdjFreeB (y :: post))
        from rfl] at h
    simp only [Bool.and_eq_true] at h
    rintro ⟨hx, hy⟩
    have h1 := h.1
    simp [hx, hy] at h1
  | cons a pre ih => exact ih (noAdjFreeB_tail h)

theorem lastAllocB_step (a : Block) (l : List Block) (hl : l ≠ []) :
    lastAllocB (a :: l) = lastAllocB l := by
  cases l with
  | nil => exact absurd rfl hl
  | cons b l' => rfl

theorem lastAllocB_append {pre : List Block} {b : Block}
    (h : lastAllocB (pre ++ [b]) = true) : b.header = ext b + 1 := by
  induction pre with
  | nil => simpa [lastAllocB] using h
  | cons a pre ih =>
    rw [List.cons_append, lastAllocB_step a (pre ++ [b]) (by simp)] at h
    exact ih h

theorem free_not_last {pre : List Block} {b : Block} {post : List Block}
    (hlast : lastAllocB (pre ++ b :: post) = true) (hb : b.header = ext b) :
    post ≠ [] := by
  intro hpost
  subst hpost
  have := lastAllocB_append hlast
  omega

/-! ### Forward computation of the metadata writes -/

theorem clearAt_spec (pre : List Block) (b : Block) (post : List Block) :
    clearAt (pre ++ b :: post) (sizeSum pre) (ext b) =
      some (pre ++ (⟨ext b, b.mid, ext b⟩ : Block) :: post) := by
  unfold clearAt
  rw [← Nat.add_zero (sizeSum pre), modAt_append, modAt_zero]
  simp [ext]

theorem markAt_spec (pre : List Block) (b : Block) (post : List Block)
    (size : Nat) (hs : (size ||| 1) &&& NOT1 = ext b) :
    markAt (pre ++ b :: post) (sizeSum pre) size =
      some (pre ++
        ({ b with header := size ||| 1, footer := size ||| 1 } : Block) :: post) := by
  unfold markAt
  rw [← Nat.add_zero (sizeSum pre), modAt_append, modAt_zero]
  simp [hs]

theorem shrinkAt_spec (pre : List Block) (b : Block) :
    shrinkAt (pre ++ [b]) (sizeSum pre) (ext b) = some pre := by
  unfold shrinkAt
  rw [← Nat.add_zero (sizeSum pre), modAt_append, modAt_zero]
  simp

/-! ### Forward computation of the coalescing steps -/

theorem coalesce_right_alloc (pre : List Block) (x c : Block) (post : List Block)
    (hx : x.header = ext x) (hc : c.header = ext c + 1) :
    coalesce_right (pre ++ x :: c :: post) (sizeSum pre) =
      some (pre ++ x :: c :: post, none) := by
  unfold coalesce_right
  rw [← Nat.add_zero (sizeSum pre), modAtP_append, modAtP_zero]
  have hbit : c.header &&& 1 = 1 := by
    rw [hc]
    exact succ_land_one_of_even ⟨4 * (2 + c.mid.length), by simp [ext]; ring⟩
  simp [hx, hbit]

theorem coalesce_right_free (pre : List Block) (x c : Block) (post : List Block)
    (hx : x.header = ext x) (hc : c.header = ext c)
    (hbound : ext x + ext c < U64) :
    coalesce_right (pre ++ x :: c :: post) (sizeSum pre) =
      some (pre ++
        (⟨ext c + ext x, x.mid ++ x.footer :: ext c :: c.mid, ext c + ext x⟩ : Block)
          :: post,
        some (ext x)) := by
  unfold coalesce_right
  rw [← Nat.add_zero (sizeSum pre), modAtP_append, modAtP_zero]
  have hbit : c.header &&& 1 = 0 := by
    rw [hc]
    exact land_one_of_even ⟨4 * (2 + c.mid.length), by simp [ext]; ring⟩
  have hmod : (ext c + ext x) % U64 = ext c + ext x := Nat.mod_eq_of_lt (by omega)
  have hmask : (ext c + ext x) &&& NOT1 = ext c + ext x := by
    apply land_NOT1_of_even (by simp only [U64] at *; omega)
    exact ⟨4 * (2 + c.mid.length) + 4 * (2 + x.mid.length), by simp [ext]; ring⟩
  have hc2 : ext c % 2 = 0 := by
    simp only [ext]
    omega
  simp [hx, hc, hbit, hmod, hmask, Nat.add_comm (ext x) (ext c), hc2]

theorem sizeSum_pos {post : List Block} (h : post ≠ []) : 0 < sizeSum post := by
  cases post with
  | nil => exact absurd rfl h
  | cons b rest =>
    rw [sizeSum_cons]
    have := ext_pos b
    omega

theorem coalesce_left_alloc (pre : List Block) (p : Block) (rest : List Block)
    (hph : p.header = ext p + 1) (hpf : p.footer = p.header) :
    coalesce_left (pre ++ p :: rest) (sizeSum pre + ext p) =
      some (sizeSum pre + ext p, pre ++ p :: rest, false) := by
  unfold coalesce_left
  have hr : sizeSum pre + ext p - WORD = sizeSum pre + (ext p - 8) := by
    have := ext_pos p
    simp only [WORD]
    omega
  rw [hr, readWord_footer]
  have hbit : p.footer &&& 1 = 1 := by
    rw [hpf, hph]
    exact succ_land_one_of_even ⟨4 * (2 + p.mid.length), by simp [ext]; ring⟩
  simp [hbit]

theorem coalesce_left_free (pre : List Block) (p X : Block) (rest : List Block)
    (hph : p.header = ext p) (hpf : p.footer = p.header)
    (hXh : X.header = ext X) (hbound : ext p + ext X < U64) :
    coalesce_left (pre ++ p :: X :: rest) (sizeSum pre + ext p) =
      some (sizeSum pre,
        pre ++
          (⟨ext p + ext X, p.mid ++ ext p :: ext X :: X.mid, ext p + ext X⟩ : Block)
            :: rest,
        true) := by
  unfold coalesce_left
  have hr : sizeSum pre + ext p - WORD = sizeSum pre + (ext p - 8) := by
    have := ext_pos p
    simp only [WORD]
    omega
  rw [hr, readWord_footer, hpf, hph]
  dsimp only
  have hbit : ext p &&& 1 = 0 :=
    land_one_of_even ⟨4 * (2 + p.mid.length), by simp [ext]; ring⟩
  rw [if_pos hbit, if_pos (by omega : ext p ≤ sizeSum pre + ext p)]
  have hsub : sizeSum pre + ext p - ext p = sizeSum pre + 0 := by omega
  rw [hsub, modAtP_append, modAtP_zero]
  have hmod : (ext p + ext X) % U64 = ext p + ext X := Nat.mod_eq_of_lt (by omega)
  have hmask : (ext p + ext X) &&& NOT1 = ext p + ext X := by
    apply land_NOT1_of_even (by simp only [U64] at *; omega)
    exact ⟨4 * (2 + p.mid.length) + 4 * (2 + X.mid.length), by simp [ext]; ring⟩
  simp [hpf, hph, hXh, hmod, hmask]

/-! ### The release paths

Each lemma below computes one phase of mem_free on one shape of the
neighborhood of the released block.  x names the released block after its
bit has been cleared (header = footer = extent). -/

theorem rightPhase_alloc (start : Nat) (pre : List Block) (x c : Block)
    (post : List Block) (fl : List Nat)
    (hxh : x.header = ext x) (hch : c.header = ext c + 1) :
    rightPhase start (pre ++ x :: c :: post) fl (sizeSum pre) (ext x) =
      some (pre ++ x :: c :: post, fl, false, ext x) := by
  unfold rightPhase
  have hcond : sizeSum pre + ext x < sizeSum (pre ++ x :: c :: post) := by
    rw [sizeSum_append, sizeSum_cons, sizeSum_cons]
    have := ext_pos c
    omega
  rw [if_pos hcond, coalesce_right_alloc pre x c post hxh hch]
  dsimp only
  rw [readWord_base pre x (c :: post), hxh]

theorem rightPhase_free (start : Nat) (pre : List Block) (x c : Block)
    (post : List Block) (fl : List Nat)
    (hxh : x.header = ext x) (hch : c.header = ext c)
    (hbound : ext x + ext c < U64) :
    rightPhase start (pre ++ x :: c :: post) fl (sizeSum pre) (ext x) =
      some (pre ++
          (⟨ext c + ext x, x.mid ++ x.footer :: ext c :: c.mid, ext c + ext x⟩ : Block)
            :: post,
        (start + sizeSum pre) :: fl.erase (start + sizeSum pre + ext x), true,
        ext c + ext x) := by
  unfold rightPhase
  have hcond : sizeSum pre + ext x < sizeSum (pre ++ x :: c :: post) := by
    rw [sizeSum_append, sizeSum_cons, sizeSum_cons]
    have := ext_pos c
    omega
  rw [if_pos hcond, coalesce_right_free pre x c post hxh hch hbound]
  dsimp only
  rw [readWord_base pre _ post]

theorem rightPhase_last (start : Nat) (pre : List Block) (x : Block)
    (fl : List Nat) :
    rightPhase start (pre ++ [x]) fl (sizeSum pre) (ext x) =
      some (pre ++ [x], fl, false, ext x) := by
  unfold rightPhase
  rw [if_neg (by rw [sizeSum_append, sizeSum_cons, sizeSum_nil]; omega)]

theorem leftPhase_zero (start : Nat) (bs : List Block) (fl : List Nat)
    (co : Bool) (sz : Nat) :
    leftPhase start 0 bs fl co sz = some (0, bs, fl, co, sz) := by
  unfold leftPhase
  rw [if_neg (by omega)]

theorem leftPhase_alloc (start : Nat) (pre' : List Block) (p y : Block)
    (rest : List Block) (fl : List Nat) (co1 : Bool) (sz1 : Nat)
    (hph : p.header = ext p + 1) (hpf : p.footer = p.header) :
    leftPhase start (sizeSum pre' + ext p) (pre' ++ p :: y :: rest) fl co1 sz1 =
      some (sizeSum pre' + ext p, pre' ++ p :: y :: rest,
        (if co1 then fl.erase (start + (sizeSum pre' + ext p)) else fl), co1,
        y.header) := by
  unfold leftPhase
  rw [if_pos (by have := ext_pos p; omega)]
  rw [coalesce_left_alloc pre' p (y :: rest) hph hpf]
  dsimp only
  have hread : readWord (pre' ++ p :: y :: rest) (sizeSum pre' + ext p) =
      some y.header := by
    rw [show pre' ++ p :: y :: rest = (pre' ++ [p]) ++ y :: rest by simp,
      show sizeSum pre' + ext p = sizeSum (pre' ++ [p]) by
        rw [sizeSum_append, sizeSum_cons, sizeSum_nil]
        omega]
    exact readWord_base (pre' ++ [p]) y rest
  rw [hread]
  simp only [Bool.or_false]

theorem leftPhase_free (start : Nat) (pre' : List Block) (p X : Block)
    (rest : List Block) (fl : List Nat) (co1 : Bool) (sz1 : Nat)
    (hph : p.header = ext p) (hpf : p.footer = p.header)
    (hXh : X.header = ext X) (hbound : ext p + ext X < U64) :
    leftPhase start (sizeSum pre' + ext p) (pre' ++ p :: X :: rest) fl co1 sz1 =
      some (sizeSum pre',
        pre' ++
          (⟨ext p + ext X, p.mid ++ ext p :: ext X :: X.mid, ext p + ext X⟩ : Block)
            :: rest,
        (if co1 then fl.erase (start + (sizeSum pre' + ext p)) else fl), true,
        ext p + ext X) := by
  unfold leftPhase
  rw [if_pos (by have := ext_pos p; omega)]
  rw [coalesce_left_free pre' p X rest hph hpf hXh hbound]
  dsimp only
  rw [readWord_base pre' _ rest]
  simp only [Bool.or_true]

theorem finishPhase_noShrink (start r3 : Nat) (bs3 : List Block) (fl3 : List Nat)
    (co : Bool) (sz3 : Nat) (h : ¬ r3 + sz3 = sizeSum bs3) :
    finishPhase start r3 bs3 fl3 co sz3 =
      .ok ⟨start, bs3, if co then fl3 else (start + r3) :: fl3⟩ := by
  unfold finishPhase
  rw [if_neg h]

theorem finishPhase_shrink_noCo (start : Nat) (pre : List Block) (x : Block)
    (fl : List Nat) :
    finishPhase start (sizeSum pre) (pre ++ [x]) fl false (ext x) =
      .ok ⟨start, pre, fl⟩ := by
  unfold finishPhase
  rw [if_pos (by rw [sizeSum_append, sizeSum_cons, sizeSum_nil]; omega)]
  rw [shrinkAt_spec pre x]
  simp

theorem finishPhase_shrink_co (start : Nat) (pre : List Block) (x : Block)
    (fl : List Nat) :
    finishPhase start (sizeSum pre) (pre ++ [x]) fl true (ext x) =
      .ok ⟨start, pre, fl.erase (start + sizeSum pre)⟩ := by
  unfold finishPhase
  rw [if_pos (by rw [sizeSum_append, sizeSum_cons, sizeSum_nil]; omega)]
  rw [shrinkAt_spec pre x]
  simp

/-- mem_free on the payload pointer of an allocated block: the pointer
checks pass, the header is read back, the bit test sees an allocated block,
and the header and footer are rewritten with the bit cleared; the rest is
the coalescing phase. -/
theorem mem_free_entry (start : Nat) (pre : List Block) (b : Block)
    (post : List Block) (fl : List Nat)
    (hb : b.header = ext b + 1) (hbound : ext b + 1 < U64) :
    mem_free ⟨start, pre ++ b :: post, fl⟩ (start + sizeSum pre + WORD) =
      freePhase2 start (pre ++ (⟨ext b, b.mid, ext b⟩ : Block) :: post) fl
        (sizeSum pre) (ext b) := by
  have hext := ext_pos b
  unfold mem_free
  dsimp only
  rw [if_neg (by
    simp only [heapEnd, sizeSum_append, sizeSum_cons, WORD]
    push_neg
    constructor <;> omega)]
  rw [if_neg (by simp only [WORD]; omega)]
  rw [show start + sizeSum pre + WORD - WORD - start = sizeSum pre by
    simp only [WORD]; omega]
  rw [readWord_base pre b post]
  dsimp only
  have heven : 2 ∣ ext b := ⟨4 * (2 + b.mid.length), by simp [ext]; ring⟩
  rw [hb, succ_land_one_of_even heven]
  rw [if_neg (by omega)]
  rw [succ_land_NOT1_of_even hbound heven, clearAt_spec pre b post]

/-- Release path: both neighbors allocated (or at the arena edge), block not
trailing.  No coalescing: the cleared block is inserted at the head of the
free list. -/
theorem mem_free_noMerge_noShrink (start : Nat) (pre : List Block) (b c : Block)
    (post : List Block) (fl : List Nat)
    (hb : b.header = ext b + 1) (hbound : ext b + 1 < U64)
    (hch : c.header = ext c + 1)
    (hleft : pre = [] ∨
      ∃ pre' p, pre = pre' ++ [p] ∧ p.header = ext p + 1 ∧ p.footer = p.header) :
    mem_free ⟨start, pre ++ b :: c :: post, fl⟩ (start + sizeSum pre + WORD) =
      .ok ⟨start, pre ++ (⟨ext b, b.mid, ext b⟩ : Block) :: c :: post,
        (start + sizeSum pre) :: fl⟩ := by
  rw [mem_free_entry start pre b (c :: post) fl hb hbound]
  set x : Block := ⟨ext b, b.mid, ext b⟩ with hx
  have hxh : x.header = ext x := by simp [hx, ext]
  have hxx : ext x = ext b := by simp [hx, ext]
  unfold freePhase2
  rw [← hxx, rightPhase_alloc start pre x c post fl hxh hch]
  dsimp only
  rcases hleft with hnil | ⟨pre', p, hpre, hph, hpf⟩
  · subst hnil
    rw [sizeSum_nil, leftPhase_zero]
    dsimp only
    rw [finishPhase_noShrink start 0 _ _ false (ext x) (by
      simp only [List.nil_append, sizeSum_cons]
      have := ext_pos c
      omega)]
    simp
  · subst hpre
    have hsz : sizeSum (pre' ++ [p]) = sizeSum pre' + ext p := by
      rw [sizeSum_append, sizeSum_cons, sizeSum_nil]
      omega
    rw [show (pre' ++ [p]) ++ x :: c :: post = pre' ++ p :: x :: c :: post by simp,
      hsz, leftPhase_alloc start pre' p x (c :: post) fl false (ext x) hph hpf]
    dsimp only
    rw [show (if false = true then fl.erase (start + (sizeSum pre' + ext p)) else fl)
        = fl by simp]
    rw [finishPhase_noShrink start _ _ _ false (ext b) (by
      simp only [sizeSum_append, sizeSum_cons, hxx]
      have := ext_pos c
      omega)]
    simp [hsz]

/-- Release path: block is trailing, left neighbor allocated (or arena
base).  No coalescing; the block is inserted and at once removed again by
the arena shrink, which retracts the break past it. -/
theorem mem_free_noMerge_shrink (start : Nat) (pre : List Block) (b : Block)
    (fl : List Nat)
    (hb : b.header = ext b + 1) (hbound : ext b + 1 < U64)
    (hleft : pre = [] ∨
      ∃ pre' p, pre = pre' ++ [p] ∧ p.header = ext p + 1 ∧ p.footer = p.header) :
    mem_free ⟨start, pre ++ [b], fl⟩ (start + sizeSum pre + WORD) =
      .ok ⟨start, pre, fl⟩ := by
  rw [mem_free_entry start pre b [] fl hb hbound]
  set x : Block := ⟨ext b, b.mid, ext b⟩ with hx
  have hxh : x.header = ext x := by simp [hx, ext]
  have hxx : ext x = ext b := by simp [hx, ext]
  unfold freePhase2
  rw [← hxx, rightPhase_last start pre x fl]
  dsimp only
  rcases hleft with hnil | ⟨pre', p, hpre, hph, hpf⟩
  · subst hnil
    rw [sizeSum_nil, leftPhase_zero]
    dsimp only
    exact finishPhase_shrink_noCo start [] x fl
  · subst hpre
    have hsz : sizeSum (pre' ++ [p]) = sizeSum pre' + ext p := by
      rw [sizeSum_append, sizeSum_cons, sizeSum_nil]
      omega
    rw [show (pre' ++ [p]) ++ [x] = pre' ++ p :: [x] by simp,
      hsz, leftPhase_alloc start pre' p x [] fl false (ext x) hph hpf]
    dsimp only
    rw [show (if false = true then fl.erase (start + (sizeSum pre' + ext p)) else fl)
        = fl by simp]
    rw [show pre' ++ p :: [x] = (pre' ++ [p]) ++ [x] by simp, ← hsz, ← hxx]
    exact finishPhase_shrink_noCo start (pre' ++ [p]) x fl

/-- Release path: arena-base block with a free right neighbor.  The merged
block is inserted by coalesce_right and, the left guard failing, stays in
the free list: the correct behavior at the arena base. -/
theorem mem_free_right_at_base (start : Nat) (b c : Block) (post : List Block)
    (fl : List Nat)
    (hb : b.header = ext b + 1) (hch : c.header = ext c)
    (hbound : ext b + ext c + 1 < U64) (hpost : post ≠ []) :
    mem_free ⟨start, b :: c :: post, fl⟩ (start + WORD) =
      .ok ⟨start,
        (⟨ext c + ext b, b.mid ++ ext b :: ext c :: c.mid, ext c + ext b⟩ : Block)
          :: post,
        start :: fl.erase (start + ext b)⟩ := by
  rw [show start + WORD = start + sizeSum ([] : List Block) + WORD by
    rw [sizeSum_nil]
    omega]
  rw [show b :: c :: post = [] ++ b :: c :: post from rfl,
    mem_free_entry start [] b (c :: post) fl hb (by omega)]
  set x : Block := ⟨ext b, b.mid, ext b⟩ with hx
  have hxh : x.header = ext x := by simp [hx, ext]
  have hxx : ext x = ext b := by simp [hx, ext]
  unfold freePhase2
  rw [← hxx, rightPhase_free start [] x c post fl hxh hch (by omega)]
  dsimp only
  rw [sizeSum_nil, leftPhase_zero]
  dsimp only
  set M : Block := ⟨ext c + ext x, x.mid ++ x.footer :: ext c :: c.mid, ext c + ext x⟩
    with hM
  have hMe : ext M = ext c + ext x := by simp [hM, ext, hxx]; omega
  rw [finishPhase_noShrink start 0 _ _ true (ext c + ext x) (by
    simp only [List.nil_append, sizeSum_cons, hMe]
    have := sizeSum_pos hpost
    omega)]
  simp [hM, hx, ext]

/-- Release path: free right neighbor and allocated left neighbor.  This is
the lost-block path: coalesce_right already put the merged block into the
free list, the left guard removes it again, the left merge does not happen,
and the final insertion is skipped because the coalesce flag is set.  The
merged block ends up free but in no free list. -/
theorem mem_free_right_left_alloc (start : Nat) (pre' : List Block)
    (p b c : Block) (post : List Block) (fl : List Nat)
    (hb : b.header = ext b + 1) (hph : p.header = ext p + 1)
    (hpf : p.footer = p.header) (hch : c.header = ext c)
    (hbound : ext b + ext c + 1 < U64) (hpost : post ≠ []) :
    mem_free ⟨start, pre' ++ p :: b :: c :: post, fl⟩
        (start + (sizeSum pre' + ext p) + WORD) =
      .ok ⟨start,
        pre' ++ p ::
          (⟨ext c + ext b, b.mid ++ ext b :: ext c :: c.mid, ext c + ext b⟩ : Block)
            :: post,
        fl.erase (start + (sizeSum pre' + ext p) + ext b)⟩ := by
  have hsz : sizeSum (pre' ++ [p]) = sizeSum pre' + ext p := by
    rw [sizeSum_append, sizeSum_cons, sizeSum_nil]
    omega
  rw [show pre' ++ p :: b :: c :: post = (pre' ++ [p]) ++ b :: c :: post by simp,
    show start + (sizeSum pre' + ext p) + WORD
      = start + sizeSum (pre' ++ [p]) + WORD by rw [hsz],
    mem_free_entry start (pre' ++ [p]) b (c :: post) fl hb (by omega)]
  set x : Block := ⟨ext b, b.mid, ext b⟩ with hx
  have hxh : x.header = ext x := by simp [hx, ext]
  have hxx : ext x = ext b := by simp [hx, ext]
  unfold freePhase2
  rw [← hxx, rightPhase_free start (pre' ++ [p]) x c post fl hxh hch (by omega)]
  dsimp only
  set M : Block := ⟨ext c + ext x, x.mid ++ x.footer :: ext c :: c.mid, ext c + ext x⟩
    with hM
  have hMe : ext M = ext c + ext x := by
    simp [hM, ext, hxx]
    omega
  rw [show (pre' ++ [p]) ++ M :: post = pre' ++ p :: M :: post by simp,
    hsz, leftPhase_alloc start pre' p M post _ true (ext c + ext x) hph hpf]
  dsimp only
  rw [if_pos rfl, List.erase_cons_head]
  rw [finishPhase_noShrink start _ _ _ true (ext c + ext x) (by
    simp only [sizeSum_append, sizeSum_cons, hMe]
    have := sizeSum_pos hpost
    omega)]
  simp [hM, hx, ext, hsz]

/-- Release path: allocated right neighbor (or none) and free left neighbor.
The freed block merges into its left neighbor, which is already in the free
list; the merged block keeps that list entry. -/
theorem mem_free_left_noShrink (start : Nat) (pre' : List Block)
    (p b c : Block) (post : List Block) (fl : List Nat)
    (hb : b.header = ext b + 1) (hph : p.header = ext p)
    (hpf : p.footer = p.header) (hch : c.header = ext c + 1)
    (hbound : ext p + ext b + 1 < U64) :
    mem_free ⟨start, pre' ++ p :: b :: c :: post, fl⟩
        (start + (sizeSum pre' + ext p) + WORD) =
      .ok ⟨start,
        pre' ++
          (⟨ext p + ext b, p.mid ++ ext p :: ext b :: b.mid, ext p + ext b⟩ : Block)
            :: c :: post,
        fl⟩ := by
  have hsz : sizeSum (pre' ++ [p]) = sizeSum pre' + ext p := by
    rw [sizeSum_append, sizeSum_cons, sizeSum_nil]
    omega
  rw [show pre' ++ p :: b :: c :: post = (pre' ++ [p]) ++ b :: c :: post by simp,
    show start + (sizeSum pre' + ext p) + WORD
      = start + sizeSum (pre' ++ [p]) + WORD by rw [hsz],
    mem_free_entry start (pre' ++ [p]) b (c :: post) fl hb (by omega)]
  set x : Block := ⟨ext b, b.mid, ext b⟩ with hx
  have hxh : x.header = ext x := by simp [hx, ext]
  have hxx : ext x = ext b := by simp [hx, ext]
  unfold freePhase2
  rw [← hxx, rightPhase_alloc start (pre' ++ [p]) x c post fl hxh hch]
  dsimp only
  rw [show (pre' ++ [p]) ++ x :: c :: post = pre' ++ p :: x :: c :: post by simp,
    hsz, leftPhase_free start pre' p x (c :: post) fl false (ext x) hph hpf hxh
      (by omega)]
  dsimp only
  rw [finishPhase_noShrink start _ _ _ true (ext p + ext x) (by
    simp only [sizeSum_append, sizeSum_cons, ext, List.length_append,
      List.length_cons]
    have : 16 ≤ 8 * (2 + c.mid.length) := by omega
    omega)]
  simp [hx, ext]

/-- Release path: trailing block with a free left neighbor.  The freed block
merges into the left neighbor and the merged block, now trailing, is removed
from the free list and returned to the OS by the arena shrink. -/
theorem mem_free_left_shrink (start : Nat) (pre' : List Block) (p b : Block)
    (fl : List Nat)
    (hb : b.header = ext b + 1) (hph : p.header = ext p)
    (hpf : p.footer = p.header) (hbound : ext p + ext b + 1 < U64) :
    mem_free ⟨start, pre' ++ p :: [b], fl⟩
        (start + (sizeSum pre' + ext p) + WORD) =
      .ok ⟨start, pre', fl.erase (start + sizeSum pre')⟩ := by
  have hsz : sizeSum (pre' ++ [p]) = sizeSum pre' + ext p := by
    rw [sizeSum_append, sizeSum_cons, sizeSum_nil]
    omega
  rw [show pre' ++ p :: [b] = (pre' ++ [p]) ++ [b] by simp,
    show start + (sizeSum pre' + ext p) + WORD
      = start + sizeSum (pre' ++ [p]) + WORD by rw [hsz],
    mem_free_entry start (pre' ++ [p]) b [] fl hb (by omega)]
  set x : Block := ⟨ext b, b.mid, ext b⟩ with hx
  have hxh : x.header = ext x := by simp [hx, ext]
  have hxx : ext x = ext b := by simp [hx, ext]
  unfold freePhase2
  rw [← hxx, rightPhase_last start (pre' ++ [p]) x fl]
  dsimp only
  rw [show (pre' ++ [p]) ++ [x] = pre' ++ p :: [x] by simp,
    hsz, leftPhase_free start pre' p x [] fl false (ext x) hph hpf hxh (by omega)]
  dsimp only
  set M2 : Block := ⟨ext p + ext x, p.mid ++ ext p :: ext x :: x.mid, ext p + ext x⟩
    with hM2
  have hM2e : ext M2 = ext p + ext x := by
    simp [hM2, ext, hxx]
    omega
  rw [show (if false = true then fl.erase (start + (sizeSum pre' + ext p)) else fl)
      = fl by simp]
  rw [show ext p + ext x = ext M2 from hM2e.symm,
    finishPhase_shrink_co start pre' M2 fl]

/-- Release path: both neighbors free.  Right merge, removal of the merged
block from the list, then left merge into the left neighbor, whose list
entry survives and now denotes the triple merge. -/
theorem mem_free_both (start : Nat) (pre' : List Block) (p b c : Block)
    (post : List Block) (fl : List Nat)
    (hb : b.header = ext b + 1) (hph : p.header = ext p)
    (hpf : p.footer = p.header) (hch : c.header = ext c)
    (hbound : ext p + ext b + ext c + 1 < U64) (hpost : post ≠ []) :
    mem_free ⟨start, pre' ++ p :: b :: c :: post, fl⟩
        (start + (sizeSum pre' + ext p) + WORD) =
      .ok ⟨start,
        pre' ++
          (⟨ext p + (ext c + ext b),
            p.mid ++ ext p :: (ext c + ext b) :: (b.mid ++ ext b :: ext c :: c.mid),
            ext p + (ext c + ext b)⟩ : Block) :: post,
        fl.erase (start + (sizeSum pre' + ext p) + ext b)⟩ := by
  have hsz : sizeSum (pre' ++ [p]) = sizeSum pre' + ext p := by
    rw [sizeSum_append, sizeSum_cons, sizeSum_nil]
    omega
  rw [show pre' ++ p :: b :: c :: post = (pre' ++ [p]) ++ b :: c :: post by simp,
    show start + (sizeSum pre' + ext p) + WORD
      = start + sizeSum (pre' ++ [p]) + WORD by rw [hsz],
    mem_free_entry start (pre' ++ [p]) b (c :: post) fl hb (by omega)]
  set x : Block := ⟨ext b, b.mid, ext b⟩ with hx
  have hxh : x.header = ext x := by simp [hx, ext]
  have hxx : ext x = ext b := by simp [hx, ext]
  unfold freePhase2
  rw [← hxx, rightPhase_free start (pre' ++ [p]) x c post fl hxh hch (by omega)]
  dsimp only
  set M : Block := ⟨ext c + ext x, x.mid ++ x.footer :: ext c :: c.mid, ext c + ext x⟩
    with hM
  have hMh : M.header = ext M := by
    simp [hM, ext, hxx]
    omega
  have hMe : ext M = ext c + ext x := by
    simp [hM, ext, hxx]
    omega
  rw [show (pre' ++ [p]) ++ M :: post = pre' ++ p :: M :: post by simp,
    hsz, leftPhase_free start pre' p M post _ true (ext c + ext x) hph hpf hMh
      (by rw [hMe, hxx]; omega)]
  dsimp only
  rw [if_pos rfl, List.erase_cons_head]
  set M3 : Block := ⟨ext p + ext M, p.mid ++ ext p :: ext M :: M.mid, ext p + ext M⟩
    with hM3
  have hM3e : ext M3 = ext p + ext M := by
    simp [hM3, ext]
    omega
  rw [finishPhase_noShrink start _ _ _ true (ext p + ext M) (by
    simp only [sizeSum_append, sizeSum_cons, hM3e]
    have := sizeSum_pos hpost
    omega)]
  have hMe2 : ext M = ext c + ext b := by
    simp [hM, ext, hxx]
    omega
  simp [hM3, hM, hx, ext, hsz, hMe2]
  omega

/-! ### The best-fit scan -/

theorem mergeBest_none_right (f : Nat → Nat) (b : Option (Nat × Nat)) :
    mergeBest f b none = b := by
  cases b <;> rfl

theorem mergeBest_none_some (f : Nat → Nat) (w : Nat) :
    mergeBest f none (some w) = some (w, f w) := rfl

theorem mergeBest_some_some (f : Nat → Nat) (ab hb w : Nat) :
    mergeBest f (some (ab, hb)) (some w) =
      if f w < hb then some (w, f w) else some (ab, hb) := rfl

theorem ffb_loop_eq (bs : List Block) (start size : Nat) (f : Nat → Nat) :
    ∀ (fl : List Nat) (best : Option (Nat × Nat)),
      (∀ a ∈ fl, start ≤ a ∧ readWord bs (a - start) = some (f a)) →
      ffb_loop bs start size fl best = some (mergeBest f best (bestFit f size fl))
  | [], best, _ => by
    cases best <;> rfl
  | a :: rest, best, hf => by
    obtain ⟨ha, hra⟩ := hf a (by simp)
    rw [show ffb_loop bs start size (a :: rest) best =
      (if a < start then none
       else
        match readWord bs (a - start) with
        | none => none
        | some hd =>
          ffb_loop bs start size rest
            (if size ≤ hd then
              match best with
              | none => some (a, hd)
              | some (_, bh) => if hd < bh then some (a, hd) else best
             else best)) from rfl]
    rw [if_neg (by omega), hra]
    dsimp only
    rw [ffb_loop_eq bs start size f rest _ (fun b hb => hf b (by simp [hb]))]
    congr 1
    by_cases hq : size ≤ f a
    · rw [if_pos hq]
      cases best with
      | none =>
        show mergeBest f (some (a, f a)) (bestFit f size rest) =
          mergeBest f none (bestFit f size (a :: rest))
        rcases hrest : bestFit f size rest with - | w <;>
          simp only [bestFit, hrest, mergeBest_none_right, if_pos hq,
            mergeBest_none_some, mergeBest_some_some] <;>
          (try split_ifs) <;>
          simp only [mergeBest_none_some, mergeBest_some_some] <;>
          (try split_ifs) <;>
          first | rfl | omega
      | some pr =>
        obtain ⟨ab, hb⟩ := pr
        show mergeBest f (if f a < hb then some (a, f a) else some (ab, hb))
            (bestFit f size rest) =
          mergeBest f (some (ab, hb)) (bestFit f size (a :: rest))
        rcases hrest : bestFit f size rest with - | w <;>
          simp only [bestFit, hrest, mergeBest_none_right, if_pos hq,
            mergeBest_none_some, mergeBest_some_some] <;>
          (try split_ifs) <;>
          simp only [mergeBest_none_some, mergeBest_some_some] <;>
          (try split_ifs) <;>
          first | rfl | omega
    · rw [if_neg hq]
      have hsame : bestFit f size (a :: rest) = bestFit f size rest := by
        rcases hrest : bestFit f size rest with - | w <;>
          simp only [bestFit, hrest]
        · rw [if_neg hq]
        · rw [if_neg (fun hc => hq hc.1)]
      rw [hsame]

theorem bestFit_none_forall (f : Nat → Nat) (size : Nat) :
    ∀ fl : List Nat, bestFit f size fl = none → ∀ a ∈ fl, f a < size
  | [], _, a, ha => by simp at ha
  | a :: rest, h, b, hb => by
    rw [show bestFit f size (a :: rest) =
      (match bestFit f size rest with
       | none => if size ≤ f a then some a else none
       | some w => if size ≤ f a ∧ f a ≤ f w then some a else some w) from rfl] at h
    rcases hrest : bestFit f size rest with - | w
    · simp only [hrest] at h
      by_cases hq : size ≤ f a
      · rw [if_pos hq] at h
        exact absurd h (by simp)
      · rcases List.mem_cons.mp hb with rfl | hb'
        · omega
        · exact bestFit_none_forall f size rest hrest b hb'
    · simp only [hrest] at h
      split at h <;> simp at h

theorem bestFit_some (f : Nat → Nat) (size : Nat) :
    ∀ (fl : List Nat) (w : Nat), bestFit f size fl = some w →
      size ≤ f w ∧ ∃ l1 l2, fl = l1 ++ w :: l2 ∧
        (∀ b ∈ fl, size ≤ f b → f w ≤ f b) ∧
        (∀ b ∈ l1, size ≤ f b → f w < f b)
  | [], w, h => by simp [bestFit] at h
  | a :: rest, w, h => by
    rw [show bestFit f size (a :: rest) =
      (match bestFit f size rest with
       | none => if size ≤ f a then some a else none
       | some w => if size ≤ f a ∧ f a ≤ f w then some a else some w) from rfl] at h
    rcases hrest : bestFit f size rest with - | w'
    · simp only [hrest] at h
      by_cases hq : size ≤ f a
      · rw [if_pos hq] at h
        have haw : a = w := by
          simpa using h
        subst haw
        refine ⟨hq, [], rest, rfl, ?_, by simp⟩
        intro b hb hbq
        rcases List.mem_cons.mp hb with rfl | hb'
        · exact Nat.le_refl _
        · have := bestFit_none_forall f size rest hrest b hb'
          omega
      · rw [if_neg hq] at h
        exact absurd h (by simp)
    · simp only [hrest] at h
      obtain ⟨hq', l1', l2', hfl, hmin, hfirst⟩ := bestFit_some f size rest w' hrest
      by_cases hcond : size ≤ f a ∧ f a ≤ f w'
      · rw [if_pos hcond] at h
        have haw : a = w := by
          simpa using h
        subst haw
        refine ⟨hcond.1, [], rest, rfl, ?_, by simp⟩
        intro b hb hbq
        rcases List.mem_cons.mp hb with rfl | hb'
        · exact Nat.le_refl _
        · exact Nat.le_trans hcond.2 (hmin b hb' hbq)
      · rw [if_neg hcond] at h
        have hww : w' = w := by
          simpa using h
        subst hww
        refine ⟨hq', a :: l1', l2', by simp [hfl], ?_, ?_⟩
        · intro b hb hbq
          rcases List.mem_cons.mp hb with rfl | hb'
          · have : ¬ f b ≤ f w' := fun hle => hcond ⟨hbq, hle⟩
            omega
          · exact hmin b hb' hbq
        · intro b hb hbq
          rcases List.mem_cons.mp hb with rfl | hb'
          · have : ¬ f b ≤ f w' := fun hle => hcond ⟨hbq, hle⟩
            omega
          · exact hfirst b hb' hbq

theorem bestFit_none_iff (f : Nat → Nat) (size : Nat) (fl : List Nat) :
    bestFit f size fl = none ↔ ∀ a ∈ fl, f a < size := by
  constructor
  · exact bestFit_none_forall f size fl
  · intro hall
    rcases hres : bestFit f size fl with - | w
    · rfl
    · obtain ⟨hq, l1, l2, hfl, -, -⟩ := bestFit_some f size fl w hres
      have : w ∈ fl := by
        rw [hfl]
        simp
      have := hall w this
      omega

/-! ### The allocation paths -/

theorem splitAt_eq (pre : List Block) (b : Block) (post : List Block)
    (size remain : Nat) :
    splitAt (pre ++ b :: post) (sizeSum pre) size remain =
      (if ext b = size + remain ∧ 8 ∣ size ∧ 16 ≤ size ∧ 8 ∣ remain ∧ 16 ≤ remain
       then
        some (pre ++
          (⟨b.header, b.mid.take (size / 8 - 2), b.mid.getD (size / 8 - 2) 0⟩ : Block)
            :: (⟨remain, b.mid.drop (size / 8), remain⟩ : Block) :: post)
       else none) := by
  unfold splitAt
  rw [← Nat.add_zero (sizeSum pre), modAt_append, modAt_zero]
  dsimp only
  split_ifs <;> simp

theorem wf_freeList_decomp {h : Heap} (hwf : WF h) {a : Nat}
    (ha : a ∈ h.freeList) :
    ∃ pre b post, h.blocks = pre ++ b :: post ∧ a = h.start + sizeSum pre ∧
      b.header = ext b := by
  obtain ⟨-, -, -, hfl, -, -⟩ := hwf
  obtain ⟨hs, hbf⟩ := hfl a ha
  obtain ⟨pre, b, post, hbs, hr, hb⟩ := baseFree_elim hbf
  exact ⟨pre, b, post, hbs, by omega, hb⟩

theorem wf_find_f {h : Heap} (hwf : WF h) :
    ∀ a ∈ h.freeList, h.start ≤ a ∧
      readWord h.blocks (a - h.start) =
        some ((fun x => (readWord h.blocks (x - h.start)).getD 0) a) := by
  intro a ha
  obtain ⟨pre, b, post, hbs, ha', hb⟩ := wf_freeList_decomp hwf ha
  have hread : readWord h.blocks (a - h.start) = some b.header := by
    rw [hbs, show a - h.start = sizeSum pre by omega]
    exact readWord_base pre b post
  refine ⟨by omega, ?_⟩
  rw [hread]
  simp [hread]

theorem find_some_facts {h : Heap} {size a hdr : Nat} (hwf : WF h)
    (hfind : find_free_block h size = some (some (a, hdr))) :
    a ∈ h.freeList ∧ ∃ pre b post, h.blocks = pre ++ b :: post ∧
      a = h.start + sizeSum pre ∧ b.header = ext b ∧ hdr = ext b ∧
      size ≤ ext b := by
  set f : Nat → Nat := fun x => (readWord h.blocks (x - h.start)).getD 0 with hfdef
  have heq := ffb_loop_eq h.blocks h.start size f h.freeList none (wf_find_f hwf)
  unfold find_free_block at hfind
  rw [heq] at hfind
  rcases hbf : bestFit f size h.freeList with - | w
  · rw [hbf] at hfind
    simp [mergeBest] at hfind
  · rw [hbf, mergeBest_none_some] at hfind
    simp only [Option.some.injEq, Prod.mk.injEq] at hfind
    obtain ⟨hwa, hfw⟩ := hfind
    obtain ⟨hq, l1, l2, hfl, -, -⟩ := bestFit_some f size h.freeList w hbf
    have hmem : a ∈ h.freeList := by
      rw [← hwa, hfl]
      simp
    obtain ⟨pre, b, post, hbs, ha', hb⟩ := wf_freeList_decomp hwf hmem
    have hfa : f a = b.header := by
      rw [hfdef]
      have hr : readWord h.blocks (a - h.start) = some b.header := by
        rw [hbs, show a - h.start = sizeSum pre by omega]
        exact readWord_base pre b post
      simp [hr]
    have h1 : f a = hdr := hwa ▸ hfw
    have h2 : hdr = ext b := by rw [← h1, hfa, hb]
    have h3 : size ≤ ext b := by
      have hs' : size ≤ f a := hwa ▸ hq
      rw [hfa, hb] at hs'
      exact hs'
    exact ⟨hmem, pre, b, post, hbs, ha', hb, h2, h3⟩

theorem find_none_facts {h : Heap} {size : Nat} (hwf : WF h)
    (hfind : find_free_block h size = some none) :
    ∀ a ∈ h.freeList, (fun x => (readWord h.blocks (x - h.start)).getD 0) a < size := by
  set f : Nat → Nat := fun x => (readWord h.blocks (x - h.start)).getD 0 with hfdef
  have heq := ffb_loop_eq h.blocks h.start size f h.freeList none (wf_find_f hwf)
  unfold find_free_block at hfind
  rw [heq] at hfind
  rcases hbf : bestFit f size h.freeList with - | w
  · exact (bestFit_none_iff f size h.freeList).mp hbf
  · rw [hbf, mergeBest_none_some] at hfind
    simp at hfind

theorem find_always_some {h : Heap} (hwf : WF h) (size : Nat) :
    ∃ res, find_free_block h size = some res := by
  set f : Nat → Nat := fun x => (readWord h.blocks (x - h.start)).getD 0 with hfdef
  have heq := ffb_loop_eq h.blocks h.start size f h.freeList none (wf_find_f hwf)
  exact ⟨_, heq⟩

/-- 8 divides every adjust_size result: both summands are multiples of 8 and
the modulus is a power of two. -/
theorem adjust_size_dvd8 (n : Nat) : 8 ∣ adjust_size n := by
  unfold adjust_size
  set s := if n < MIN_PAYLOAD then MIN_PAYLOAD else n
  have hm : (s + 7) % U64 < U64 := Nat.mod_lt _ (by simp [U64])
  have h1 : 8 ∣ ((s + 7) % U64 &&& NOT7) := by
    rw [land_NOT7 hm]
    exact ⟨(s + 7) % U64 / 8, rfl⟩
  have h2 : (8 : Nat) ∣ U64 := ⟨2 ^ 61, by norm_num [U64]⟩
  have h3 : (8 : Nat) ∣ 2 * WORD + ((s + 7) % U64 &&& NOT7) :=
    Nat.dvd_add ⟨2, by simp [WORD]⟩ h1
  exact (Nat.dvd_mod_iff h2).mpr h3

/-- Inversion of a successful mem_alloc on a well-formed heap: the request
was nonzero, the adjusted size passed the PTRDIFF_MAX guard, and the
execution took the miss path (arena growth), the hit path with a split, or
the hit path consuming a whole free block. -/
theorem mem_alloc_some_inv {h : Heap} {n p : Nat} {h1 : Heap} (hwf : WF h)
    (he : mem_alloc h n = some (some p, h1)) :
    ∃ size, size = adjust_size n ∧ size ≤ PTRDIFF_MAX ∧ 8 ∣ size ∧
    ((find_free_block h size = some none ∧ 16 ≤ size ∧
       h1 = ⟨h.start,
         h.blocks ++ [⟨size + 1, List.replicate (size / 8 - 2) 0, size + 1⟩],
         h.freeList⟩ ∧
       p = h.start + sizeSum h.blocks + WORD) ∨
     (∃ pre b post, h.blocks = pre ++ b :: post ∧ b.header = ext b ∧
       16 ≤ size ∧ size + MIN_SIZE ≤ ext b ∧
       p = h.start + sizeSum pre + WORD ∧
       h1 = ⟨h.start,
         pre ++ (⟨size + 1, b.mid.take (size / 8 - 2), size + 1⟩ : Block)
             :: (⟨ext b - size, b.mid.drop (size / 8), ext b - size⟩ : Block) :: post,
         (h.start + sizeSum pre + size) :: h.freeList.erase (h.start + sizeSum pre)⟩) ∨
     (∃ pre b post, h.blocks = pre ++ b :: post ∧ b.header = ext b ∧
       size ≤ ext b ∧ ext b < size + MIN_SIZE ∧
       p = h.start + sizeSum pre + WORD ∧
       h1 = ⟨h.start, pre ++ (⟨ext b + 1, b.mid, ext b + 1⟩ : Block) :: post,
         h.freeList.erase (h.start + sizeSum pre)⟩)) := by
  obtain ⟨hblk, hadj, hlast, hfl, hstart, hbound⟩ := hwf
  unfold mem_alloc at he
  by_cases h0 : n = 0
  · rw [if_pos h0] at he
    simp at he
  · rw [if_neg h0] at he
    set size := adjust_size n with hsz
    by_cases hptr : PTRDIFF_MAX < size
    · rw [if_pos hptr] at he
      simp at he
    · rw [if_neg hptr] at he
      refine ⟨size, rfl, by omega, adjust_size_dvd8 n, ?_⟩
      obtain ⟨res, hres⟩ := find_always_some
        ⟨hblk, hadj, hlast, hfl, hstart, hbound⟩ size
      rw [hres] at he
      rcases res with - | ⟨a, hdr⟩
      · dsimp only at he
        by_cases hg : 8 ∣ size ∧ 16 ≤ size
        · rw [if_pos hg] at he
          obtain ⟨k, hk⟩ := hg.1
          have hk2 : 2 ≤ k := by omega
          have hdiv : size / 8 = k := by
            rw [hk, Nat.mul_div_cancel_left _ (by norm_num : 0 < 8)]
          have hef : ext (⟨0, List.replicate (size / 8 - 2) 0, 0⟩ : Block) = size := by
            simp [ext, hdiv]
            omega
          have hsu : size + 1 < U64 := by
            simp only [PTRDIFF_MAX, U64] at *
            omega
          have heven : 2 ∣ size := ⟨4 * k, by omega⟩
          have hmark : (size ||| 1) &&& NOT1 =
              ext (⟨0, List.replicate (size / 8 - 2) 0, 0⟩ : Block) := by
            rw [lor_one_of_even heven, succ_land_NOT1_of_even hsu heven, hef]
          rw [markAt_spec h.blocks _ [] size hmark] at he
          simp only [Option.map_some', Option.some.injEq, Prod.mk.injEq,
            Option.some.injEq] at he
          obtain ⟨hp, hh1⟩ := he
          refine Or.inl ⟨hres, hg.2, ?_, hp.symm⟩
          rw [← hh1]
          have : (⟨0, List.replicate (size / 8 - 2) 0, 0⟩ : Block).header = 0 := rfl
          simp [lor_one_of_even heven]
        · rw [if_neg hg] at he
          simp at he
      · dsimp only at he
        obtain ⟨hmem, pre, b, post, hbs, ha', hb, hhdr, hsle⟩ :=
          find_some_facts ⟨hblk, hadj, hlast, hfl, hstart, hbound⟩ hres
        rw [if_neg (by omega)] at he
        have hextb_bound : ext b < 2 ^ 62 := by
          have : ext b ≤ sizeSum h.blocks := by
            rw [hbs, sizeSum_append, sizeSum_cons]
            omega
          omega
        have heb : 2 ∣ ext b := ⟨4 * (2 + b.mid.length), by simp [ext]; ring⟩
        by_cases hrem : MIN_SIZE ≤ hdr - size
        · rw [if_pos hrem] at he
          rw [hbs, show a - h.start = sizeSum pre by omega, splitAt_eq] at he
          by_cases hcond : ext b = size + (hdr - size) ∧ 8 ∣ size ∧ 16 ≤ size ∧
              8 ∣ (hdr - size) ∧ 16 ≤ hdr - size
          · rw [if_pos hcond] at he
            dsimp only [Option.bind] at he
            obtain ⟨hextb, hdvd, h16, hdvdr, h16r⟩ := hcond
            obtain ⟨k, hk⟩ := hdvd
            have hk2 : 2 ≤ k := by omega
            have hdiv : size / 8 = k := by
              rw [hk, Nat.mul_div_cancel_left _ (by norm_num : 0 < 8)]
            have hlenb : 8 * (2 + b.mid.length) = ext b := rfl
            have hlen_ge : size / 8 - 2 ≤ b.mid.length := by
              have h1 : ext b = 8 * (2 + b.mid.length) := rfl
              simp only [MIN_SIZE] at hrem
              omega
            have htlen : (b.mid.take (size / 8 - 2)).length = size / 8 - 2 := by
              rw [List.length_take]
              omega
            have hext1 : ext (⟨b.header, b.mid.take (size / 8 - 2),
                b.mid.getD (size / 8 - 2) 0⟩ : Block) = size := by
              simp only [ext, htlen]
              omega
            have hsu : size + 1 < U64 := by
              simp only [PTRDIFF_MAX, U64] at *
              omega
            have heven : 2 ∣ size := ⟨4 * k, by omega⟩
            have hmark : (size ||| 1) &&& NOT1 =
                ext (⟨b.header, b.mid.take (size / 8 - 2),
                  b.mid.getD (size / 8 - 2) 0⟩ : Block) := by
              rw [lor_one_of_even heven, succ_land_NOT1_of_even hsu heven, hext1]
            rw [markAt_spec pre _ _ size hmark] at he
            simp only [Option.map_some', Option.some.injEq, Prod.mk.injEq] at he
            obtain ⟨hp, hh1⟩ := he
            refine Or.inr (Or.inl ⟨pre, b, post, hbs, hb, h16, by
              simp only [MIN_SIZE] at *
              omega, by omega, ?_⟩)
            rw [← hh1]
            have hfix : hdr - size = ext b - size := by omega
            simp [lor_one_of_even heven, hfix, ha']
          · rw [if_neg hcond] at he
            simp at he
        · rw [if_neg hrem] at he
          rw [hbs, show a - h.start = sizeSum pre by omega] at he
          have hmark : (hdr ||| 1) &&& NOT1 = ext b := by
            rw [hhdr, lor_one_of_even heb,
              succ_land_NOT1_of_even (by simp only [U64]; omega) heb]
          rw [markAt_spec pre b post hdr hmark] at he
          simp only [Option.map_some', Option.some.injEq, Prod.mk.injEq] at he
          obtain ⟨hp, hh1⟩ := he
          refine Or.inr (Or.inr ⟨pre, b, post, hbs, hb, by omega, by
            simp only [MIN_SIZE] at *
            omega, by omega, ?_⟩)
          rw [← hh1]
          simp [hhdr, lor_one_of_even heb, ha']

/-- A NULL return of mem_alloc leaves the heap unchanged: only the
zero-request and the overflow-guard branches return NULL. -/
theorem mem_alloc_none_inv {h : Heap} {n : Nat} {h1 : Heap}
    (he : mem_alloc h n = some (none, h1)) : h1 = h := by
  unfold mem_alloc at he
  by_cases h0 : n = 0
  · rw [if_pos h0] at he
    simp only [Option.some.injEq, Prod.mk.injEq] at he
    exact he.2.symm
  · rw [if_neg h0] at he
    set size := adjust_size n with hsz
    by_cases hptr : PTRDIFF_MAX < size
    · rw [if_pos hptr] at he
      simp only [Option.some.injEq, Prod.mk.injEq] at he
      exact he.2.symm
    · rw [if_neg hptr] at he
      rcases hfind : find_free_block h size with - | res
      · rw [hfind] at he
        simp at he
      · rw [hfind] at he
        rcases res with - | ⟨a, hdr⟩ <;> dsimp only at he
        · by_cases hg : 8 ∣ size ∧ 16 ≤ size
          · rw [if_pos hg] at he
            rcases hmk : markAt
                (h.blocks ++ [⟨0, List.replicate (size / 8 - 2) 0, 0⟩])
                (sizeSum h.blocks) size with - | bs2 <;> rw [hmk] at he <;>
              simp at he
          · rw [if_neg hg] at he
            simp at he
        · by_cases ha : a < h.start
          · rw [if_pos ha] at he
            simp at he
          · rw [if_neg ha] at he
            by_cases hrem : MIN_SIZE ≤ hdr - size
            · rw [if_pos hrem] at he
              rcases hsp : splitAt h.blocks (a - h.start) size (hdr - size)
                  with - | bs1
              · rw [hsp] at he
                simp at he
              · rw [hsp] at he
                dsimp only [Option.bind] at he
                rcases hmk : markAt bs1 (a - h.start) size with - | bs2 <;>
                  rw [hmk] at he <;> simp at he
            · rw [if_neg hrem] at he
              rcases hmk : markAt h.blocks (a - h.start) hdr with - | bs2 <;>
                rw [hmk] at he <;> simp at he

theorem ext_even (b : Block) : 2 ∣ ext b :=
  ⟨4 * (2 + b.mid.length), by simp [ext]; ring⟩

theorem isFreeBlock_free {b : Block} (hb : b.header = ext b) :
    isFreeBlock b = true := by
  simp [isFreeBlock, hb, land_one_of_even (ext_even b)]

theorem isFreeBlock_alloc {b : Block} (hb : b.header = ext b + 1) :
    isFreeBlock b = false := by
  simp [isFreeBlock, hb, succ_land_one_of_even (ext_even b)]

/-- The block left-adjacent to a free block in a well-formed arena is
allocated (or the free block sits at the arena base). -/
theorem left_neighbor_cases {bs pre : List Block} {b : Block} {post : List Block}
    (hbs : bs = pre ++ b :: post)
    (hblk : ∀ x ∈ bs, (x.header = ext x ∨ x.header = ext x + 1) ∧ x.footer = x.header)
    (hadj : noAdjFreeB bs = true) (hbfree : b.header = ext b) :
    pre = [] ∨
      ∃ pre' q, pre = pre' ++ [q] ∧ q.header = ext q + 1 ∧ q.footer = q.header := by
  rcases List.eq_nil_or_concat pre with rfl | ⟨pre', q, rfl⟩
  · exact Or.inl rfl
  · right
    rw [List.concat_eq_append] at hbs
    have hadj' : noAdjFreeB (pre' ++ q :: b :: post) = true := by
      rw [show pre' ++ q :: b :: post = (pre' ++ [q]) ++ b :: post by simp, ← hbs]
      exact hadj
    have hpair := noAdjFreeB_pair hadj'
    have hq := hblk q (by rw [hbs]; simp)
    refine ⟨pre', q, by simp, ?_, hq.2⟩
    rcases hq.1 with hfree | halloc
    · exact absurd ⟨hfree, hbfree⟩ hpair
    · exact halloc

/-- The trailing block of a well-formed arena is allocated (or the arena is
empty). -/
theorem last_block_cases {bs : List Block}
    (hblk : ∀ x ∈ bs, (x.header = ext x ∨ x.header = ext x + 1) ∧ x.footer = x.header)
    (hlast : lastAllocB bs = true) :
    bs = [] ∨
      ∃ pre' q, bs = pre' ++ [q] ∧ q.header = ext q + 1 ∧ q.footer = q.header := by
  rcases List.eq_nil_or_concat bs with rfl | ⟨pre', q, rfl⟩
  · exact Or.inl rfl
  · right
    have hq := hblk q (by simp)
    have hlast' : lastAllocB (pre' ++ [q]) = true := by
      rw [← List.concat_eq_append]
      exact hlast
    exact ⟨pre', q, by simp, lastAllocB_append hlast', hq.2⟩

/-! ### Boundary-tag preservation -/

theorem merged_ext (x c : Block) (u v w : Nat) :
    ext (⟨v, x.mid ++ u :: w :: c.mid, v⟩ : Block) = ext x + ext c := by
  simp [ext]
  omega

theorem tagged_nil : tagged [] := by
  simp [tagged]

theorem tagged_append {xs ys : List Block} :
    tagged (xs ++ ys) ↔ tagged xs ∧ tagged ys := by
  unfold tagged
  exact List.forall_mem_append

theorem tagged_cons {x : Block} {xs : List Block} :
    tagged (x :: xs) ↔
      ((x.header = ext x ∨ x.header = ext x + 1) ∧ x.footer = x.header) ∧
        tagged xs := by
  unfold tagged
  exact List.forall_mem_cons

theorem masked_eq_or {x e : Nat} (hx : x < U64) (hand : x &&& NOT1 = e) :
    x = e ∨ x = e + 1 := by
  have := land_NOT1 hx
  omega

theorem clearAt_tagged {bs : List Block} {r size : Nat} {out : List Block}
    (h : clearAt bs r size = some out) (ht : tagged bs) : tagged out := by
  unfold clearAt at h
  obtain ⟨pre, tail, tl2, hbs, hr, hf, ho⟩ := modAt_eq_some h
  subst hbs
  subst ho
  rcases tail with - | ⟨b, rest⟩
  · exact absurd hf (by simp)
  · rw [tagged_append] at ht ⊢
    refine ⟨ht.1, ?_⟩
    have htl := (tagged_cons.mp ht.2).2
    dsimp only at hf
    split_ifs at hf with he
    obtain rfl := Option.some.inj hf
    rw [tagged_cons]
    exact ⟨⟨Or.inl (by simp [ext, ← he]), rfl⟩, htl⟩

theorem coalesce_right_tagged {bs : List Block} {r : Nat}
    {out : List Block × Option Nat}
    (h : coalesce_right bs r = some out) (ht : tagged bs) : tagged out.1 := by
  unfold coalesce_right at h
  obtain ⟨pre, tail, tl2, hbs, hr, hf, ho⟩ := modAtP_eq_some h
  subst hbs
  rw [ho]
  rcases tail with - | ⟨b, tail1⟩
  · exact absurd hf (by simp)
  rcases tail1 with - | ⟨b2, rest⟩
  · exact absurd hf (by simp)
  rw [tagged_append] at ht ⊢
  refine ⟨ht.1, ?_⟩
  have htl := tagged_cons.mp ht.2
  have htl2 := tagged_cons.mp htl.2
  simp only at hf
  split_ifs at hf with h1 h2 h3
  · simp only [Option.some.injEq, Prod.mk.injEq] at hf
    obtain ⟨h5, -⟩ := hf
    rw [← h5]
    rw [tagged_cons]
    refine ⟨⟨?_, rfl⟩, htl2.2⟩
    have hlt : (b2.header + b.header) % U64 < U64 := Nat.mod_lt _ (by simp [U64])
    have := masked_eq_or hlt h3
    rw [merged_ext b b2]
    dsimp only
    omega
  · simp only [Option.some.injEq, Prod.mk.injEq] at hf
    obtain ⟨h5, -⟩ := hf
    rw [← h5]
    exact ht.2

theorem coalesce_left_tagged {bs : List Block} {r : Nat}
    {out : Nat × List Block × Bool}
    (h : coalesce_left bs r = some out) (ht : tagged bs) : tagged out.2.1 := by
  unfold coalesce_left at h
  rcases hrw : readWord bs (r - WORD) with - | psz
  · rw [hrw] at h
    exact absurd h (by simp)
  rw [hrw] at h
  simp only at h
  split_ifs at h with h1 h2
  · rcases hm : modAtP bs (r - psz) (fun x => match x with
      | p :: b :: rest =>
        if ext p = psz then
          let merged := (psz + b.header) % U64
          if merged &&& NOT1 = ext p + ext b then
            some (⟨merged, p.mid ++ p.footer :: b.header :: b.mid, merged⟩ :: rest,
                  ())
          else none
        else none
      | _ => none) with - | pr
    · rw [hm] at h
      exact absurd h (by simp)
    rw [hm] at h
    simp only [Option.map_some'] at h
    obtain rfl := (Option.some.inj h).symm
    show tagged pr.1
    obtain ⟨pre, tail, tl2, hbs, hr, hf, ho⟩ := modAtP_eq_some hm
    subst hbs
    rw [ho]
    rcases tail with - | ⟨p, tail1⟩
    · exact absurd hf (by simp)
    rcases tail1 with - | ⟨b, rest⟩
    · exact absurd hf (by simp)
    rw [tagged_append] at ht ⊢
    refine ⟨ht.1, ?_⟩
    have htl := tagged_cons.mp ht.2
    have htl2 := tagged_cons.mp htl.2
    simp only at hf
    split_ifs at hf with h3 h4
    · simp only [Option.some.injEq, Prod.mk.injEq] at hf
      obtain ⟨h5, -⟩ := hf
      rw [← h5]
      rw [tagged_cons]
      refine ⟨⟨?_, rfl⟩, htl2.2⟩
      have hlt : (psz + b.header) % U64 < U64 := Nat.mod_lt _ (by simp [U64])
      have := masked_eq_or hlt h4
      rw [merged_ext p b]
      dsimp only
      omega
  · obtain rfl := (Option.some.inj h).symm
    exact ht

theorem shrinkAt_tagged {bs : List Block} {r size : Nat} {out : List Block}
    (h : shrinkAt bs r size = some out) (ht : tagged bs) : tagged out := by
  unfold shrinkAt at h
  obtain ⟨pre, tail, tl2, hbs, hr, hf, ho⟩ := modAt_eq_some h
  subst hbs
  rw [ho]
  rcases tail with - | ⟨b, rest⟩
  · exact absurd hf (by simp)
  rcases rest with - | ⟨c, rest2⟩
  · dsimp only at hf
    split_ifs at hf with he
    obtain rfl := (Option.some.inj hf).symm
    rw [tagged_append] at ht
    rw [List.append_nil]
    exact ht.1
  · exact absurd hf (by simp)

theorem rightPhase_tagged {start : Nat} {bs1 : List Block} {fl1 : List Nat}
    {r size : Nat} {out : List Block × List Nat × Bool × Nat}
    (h : rightPhase start bs1 fl1 r size = some out) (ht : tagged bs1) :
    tagged out.1 := by
  unfold rightPhase at h
  split_ifs at h with h1
  · rcases hc : coalesce_right bs1 r with - | ⟨bs2, merged⟩
    · rw [hc] at h
      exact absurd h (by simp)
    rw [hc] at h
    simp only at h
    rcases hrw : readWord bs2 r with - | sz2
    · rw [hrw] at h
      exact absurd h (by simp)
    rw [hrw] at h
    simp only at h
    have htg : tagged bs2 := coalesce_right_tagged hc ht
    rcases merged with - | extB
    · obtain rfl := (Option.some.inj h).symm
      exact htg
    · obtain rfl := (Option.some.inj h).symm
      exact htg
  · obtain rfl := (Option.some.inj h).symm
    exact ht

theorem leftPhase_tagged {start r : Nat} {bs2 : List Block} {fl2 : List Nat}
    {co1 : Bool} {sz1 : Nat} {out : Nat × List Block × List Nat × Bool × Nat}
    (h : leftPhase start r bs2 fl2 co1 sz1 = some out) (ht : tagged bs2) :
    tagged out.2.1 := by
  unfold leftPhase at h
  by_cases h1 : 0 < r
  · rw [if_pos h1] at h
    dsimp only at h
    rcases hc : coalesce_left bs2 r with - | ⟨r2, bs3, co2⟩
    · rw [hc] at h
      exact absurd h (by simp)
    rw [hc] at h
    simp only at h
    rcases hrw : readWord bs3 r2 with - | sz2
    · rw [hrw] at h
      exact absurd h (by simp)
    rw [hrw] at h
    simp only at h
    obtain rfl := (Option.some.inj h).symm
    exact coalesce_left_tagged hc ht
  · rw [if_neg h1] at h
    obtain rfl := (Option.some.inj h).symm
    exact ht

theorem finishPhase_tagged {start r3 : Nat} {bs3 : List Block} {fl3 : List Nat}
    {co : Bool} {sz3 : Nat} {h1 : Heap}
    (h : finishPhase start r3 bs3 fl3 co sz3 = .ok h1) (ht : tagged bs3) :
    tagged h1.blocks := by
  unfold finishPhase at h
  dsimp only at h
  by_cases h2 : r3 + sz3 = sizeSum bs3
  · rw [if_pos h2] at h
    rcases hs : shrinkAt bs3 r3 sz3 with - | bs4
    · rw [hs] at h
      exact absurd h (by simp)
    rw [hs] at h
    simp only [FreeResult.ok.injEq] at h
    rw [← h]
    exact shrinkAt_tagged hs ht
  · rw [if_neg h2] at h
    simp only [FreeResult.ok.injEq] at h
    rw [← h]
    exact ht

theorem mem_free_tagged {h : Heap} {p : Nat} {h1 : Heap}
    (ht : tagged h.blocks) (hf : mem_free h p = .ok h1) : tagged h1.blocks := by
  unfold mem_free at hf
  split_ifs at hf with h1' h2'
  dsimp only at hf
  rcases hrw : readWord h.blocks (p - WORD - h.start) with - | hd
  · rw [hrw] at hf
    exact absurd hf (by simp)
  rw [hrw] at hf
  simp only at hf
  split_ifs at hf with h3'
  rcases hcl : clearAt h.blocks (p - WORD - h.start) (hd &&& NOT1) with - | bs1
  · rw [hcl] at hf
    exact absurd hf (by simp)
  rw [hcl] at hf
  simp only at hf
  have ht1 : tagged bs1 := clearAt_tagged hcl ht
  unfold freePhase2 at hf
  rcases hr : rightPhase h.start bs1 h.freeList (p - WORD - h.start)
      (hd &&& NOT1) with - | ⟨bs2, fl2, co1, sz1⟩
  · rw [hr] at hf
    exact absurd hf (by simp)
  rw [hr] at hf
  simp only at hf
  rcases hl : leftPhase h.start (p - WORD - h.start) bs2 fl2 co1 sz1 with
    - | ⟨r3, bs3, fl3, co, sz3⟩
  · rw [hl] at hf
    exact absurd hf (by simp)
  rw [hl] at hf
  simp only at hf
  exact finishPhase_tagged hf (leftPhase_tagged hl (rightPhase_tagged hr ht1))

theorem mem_alloc_some_shape {h : Heap} {n np : Nat} {h1 : Heap} (hwf : WF h)
    (ha : mem_alloc h n = some (some np, h1)) :
    tagged h1.blocks ∧ h1.start = h.start ∧ adjust_size n ≤ PTRDIFF_MAX ∧
      sizeSum h1.blocks ≤ sizeSum h.blocks + adjust_size n ∧
      ∃ pre nb post, h1.blocks = pre ++ nb :: post ∧
        np = h.start + sizeSum pre + WORD ∧ adjust_size n ≤ ext nb := by
  have hth : tagged h.blocks := hwf.1
  obtain ⟨size, hsz, hptr, hdvd, hcase⟩ := mem_alloc_some_inv hwf ha
  obtain ⟨k, hk⟩ := hdvd
  rcases hcase with ⟨hfind, h16, hh1, hp⟩ |
    ⟨pre, b, post, hbs, hbf, h16, hsplit, hp, hh1⟩ |
    ⟨pre, b, post, hbs, hbf, hsle, hwhole, hp, hh1⟩
  · have hk2 : 2 ≤ k := by omega
    have hdiv : size / 8 = k := by
      rw [hk, Nat.mul_div_cancel_left _ (by norm_num : 0 < 8)]
    have hef : ext (⟨size + 1, List.replicate (size / 8 - 2) 0, size + 1⟩ : Block)
        = size := by
      simp [ext, hdiv]
      omega
    rw [hh1]
    refine ⟨?_, rfl, by rw [← hsz]; exact hptr, ?_, h.blocks,
      ⟨size + 1, List.replicate (size / 8 - 2) 0, size + 1⟩, [], rfl, ?_, ?_⟩
    · rw [tagged_append]
      exact ⟨hth, by rw [tagged_cons]; exact ⟨⟨Or.inr (by rw [hef]), rfl⟩,
        tagged_nil⟩⟩
    · rw [sizeSum_append, sizeSum_cons, sizeSum_nil, hef, hsz]
      omega
    · rw [hp]
    · rw [hef, hsz]
  · have hk2 : 2 ≤ k := by omega
    have hdiv : size / 8 = k := by
      rw [hk, Nat.mul_div_cancel_left _ (by norm_num : 0 < 8)]
    have hextb8 : ext b = 8 * (2 + b.mid.length) := rfl
    have hklen : k + 2 ≤ b.mid.length := by
      simp only [MIN_SIZE] at hsplit
      omega
    have hP1 : ext (⟨size + 1, b.mid.take (size / 8 - 2), size + 1⟩ : Block)
        = size := by
      simp only [ext, List.length_take, hdiv]
      omega
    have hP2 : ext (⟨ext b - size, b.mid.drop (size / 8), ext b - size⟩ : Block)
        = ext b - size := by
      simp only [ext, List.length_drop, hdiv]
      omega
    rw [hbs] at hth
    rw [tagged_append] at hth
    have hth2 := tagged_cons.mp hth.2
    rw [hh1]
    refine ⟨?_, rfl, by rw [← hsz]; exact hptr, ?_, pre,
      ⟨size + 1, b.mid.take (size / 8 - 2), size + 1⟩,
      (⟨ext b - size, b.mid.drop (size / 8), ext b - size⟩ : Block) :: post,
      rfl, ?_, ?_⟩
    · rw [tagged_append, tagged_cons, tagged_cons]
      exact ⟨hth.1, ⟨Or.inr (by rw [hP1]), rfl⟩,
        ⟨Or.inl (by rw [hP2]), rfl⟩, hth2.2⟩
    · rw [hbs, sizeSum_append, sizeSum_append, sizeSum_cons, sizeSum_cons,
        sizeSum_cons, hP1, hP2]
      omega
    · rw [hp]
    · rw [hP1, hsz]
  · have hbfull : b = ⟨ext b, b.mid, ext b⟩ := by
      rw [hbs] at hth
      have hft := ((tagged_cons.mp (tagged_append.mp hth).2).1).2
      cases b
      simp only [Block.mk.injEq]
      exact ⟨hbf, trivial, hft.trans hbf⟩
    rw [hbs] at hth
    rw [tagged_append] at hth
    have hth2 := tagged_cons.mp hth.2
    rw [hh1]
    refine ⟨?_, rfl, by rw [← hsz]; exact hptr, ?_, pre,
      ⟨ext b + 1, b.mid, ext b + 1⟩, post, rfl, ?_, ?_⟩
    · rw [tagged_append, tagged_cons]
      exact ⟨hth.1, ⟨Or.inr (by simp [ext]), rfl⟩, hth2.2⟩
    · rw [hbs, sizeSum_append, sizeSum_append, sizeSum_cons, sizeSum_cons]
      have : ext (⟨ext b + 1, b.mid, ext b + 1⟩ : Block) = ext b := by
        simp [ext]
      rw [this]
      omega
    · rw [hp]
    · have : ext (⟨ext b + 1, b.mid, ext b + 1⟩ : Block) = ext b := by
        simp [ext]
      rw [this, ← hsz]
      exact hsle

theorem ext_setWord (b : Block) (j v : Nat) : ext (setWord b j v) = ext b := by
  unfold setWord
  split_ifs <;> simp [ext]

theorem writeWord_some_lt {bs : List Block} {r v : Nat} {out : List Block}
    (h : writeWord bs r v = some out) : r < sizeSum bs := by
  induction bs generalizing r out with
  | nil => exact absurd h (by simp [writeWord])
  | cons b rest ih =>
    rw [sizeSum_cons]
    by_cases hlt : r < ext b
    · omega
    · rw [writeWord_cons_ge b rest r v (by omega)] at h
      obtain ⟨out2, hout2, -⟩ := Option.map_eq_some'.mp h
      have := ih hout2
      omega

theorem writeWord_sizeSum {bs : List Block} {r v : Nat} {out : List Block}
    (h : writeWord bs r v = some out) : sizeSum out = sizeSum bs := by
  induction bs generalizing r out with
  | nil => exact absurd h (by simp [writeWord])
  | cons b rest ih =>
    by_cases hlt : r < ext b
    · rw [writeWord_cons_lt b rest r v hlt] at h
      split_ifs at h
      obtain rfl := (Option.some.inj h).symm
      rw [sizeSum_cons, sizeSum_cons, ext_setWord]
    · rw [writeWord_cons_ge b rest r v (by omega)] at h
      obtain ⟨out2, hout2, hmap⟩ := Option.map_eq_some'.mp h
      rw [← hmap, sizeSum_cons, sizeSum_cons, ih hout2]

theorem copyWords_succ (bs : List Block) (start src dst n : Nat) :
    copyWords bs start src dst (n + 1) =
      if src < start ∨ dst < start then none
      else
        match readWord bs (src - start) with
        | none => none
        | some v =>
          match writeWord bs (dst - start) v with
          | none => none
          | some bs2 => copyWords bs2 start (src + WORD) (dst + WORD) n := rfl

theorem copyWords_bound {bs : List Block} {start src dst n : Nat}
    {out : List Block}
    (h : copyWords bs start src dst (n + 1) = some out) :
    start ≤ dst ∧ dst + 8 * n - start < sizeSum bs := by
  induction n generalizing bs src dst with
  | zero =>
    simp only [copyWords] at h
    split_ifs at h with hg
    rcases hrd : readWord bs (src - start) with - | v
    · rw [hrd] at h
      exact absurd h (by simp)
    rw [hrd] at h
    simp only at h
    rcases hwr : writeWord bs (dst - start) v with - | bs2
    · rw [hwr] at h
      exact absurd h (by simp)
    have := writeWord_some_lt hwr
    push_neg at hg
    omega
  | succ n ih =>
    rw [copyWords_succ] at h
    split_ifs at h with hg
    rcases hrd : readWord bs (src - start) with - | v
    · rw [hrd] at h
      exact absurd h (by simp)
    rw [hrd] at h
    simp only at h
    rcases hwr : writeWord bs (dst - start) v with - | bs2
    · rw [hwr] at h
      exact absurd h (by simp)
    rw [hwr] at h
    simp only at h
    have hsz := writeWord_sizeSum hwr
    have := ih h
    simp only [WORD] at this ⊢
    push_neg at hg
    omega

theorem writeWord_payload (pre : List Block) (b : Block) (post : List Block)
    (k v : Nat) (hk : k < b.mid.length) :
    writeWord (pre ++ b :: post) (sizeSum pre + 8 * (k + 1)) v =
      some (pre ++ ⟨b.header, b.mid.set k v, b.footer⟩ :: post) := by
  rw [writeWord_append, writeWord_cons_lt _ _ _ _ (by simp only [ext]; omega),
    if_pos (by omega), Nat.mul_div_cancel_left _ (by norm_num : 0 < 8)]
  have hs : setWord b (k + 1) v = ⟨b.header, b.mid.set k v, b.footer⟩ := by
    unfold setWord
    rw [if_neg (by omega), if_pos (by omega)]
    simp
  rw [hs]
  simp

theorem copyWords_payload {pre : List Block} {post : List Block} {start : Nat}
    {b : Block} {src dst n : Nat} {out : List Block}
    (hc : copyWords (pre ++ b :: post) start src dst n = some out)
    (hlo : start + sizeSum pre + 8 ≤ dst)
    (hhi : dst + 8 * n ≤ start + sizeSum pre + ext b - 8) :
    ∃ mid2, mid2.length = b.mid.length ∧
      out = pre ++ ⟨b.header, mid2, b.footer⟩ :: post := by
  induction n generalizing b src dst with
  | zero =>
    refine ⟨b.mid, rfl, ?_⟩
    simp only [copyWords] at hc
    rw [← Option.some.inj hc]
  | succ n ih =>
    have hext8 : ext b = 8 * (2 + b.mid.length) := rfl
    simp only [copyWords] at hc
    split_ifs at hc with hg
    rcases hrd : readWord (pre ++ b :: post) (src - start) with - | v
    · rw [hrd] at hc
      exact absurd hc (by simp)
    rw [hrd] at hc
    simp only at hc
    rcases hwr : writeWord (pre ++ b :: post) (dst - start) v with - | bs2
    · rw [hwr] at hc
      exact absurd hc (by simp)
    rw [hwr] at hc
    simp only at hc
    push_neg at hg
    have hW : WORD = 8 := rfl
    have hoff : dst - start = sizeSum pre + (dst - start - sizeSum pre) := by
      omega
    set w := dst - start - sizeSum pre with hw
    have hwlo : 8 ≤ w := by omega
    have hwhi : w ≤ ext b - 16 := by omega
    rw [hoff, writeWord_append,
      writeWord_cons_lt _ _ _ _ (by omega : w < ext b)] at hwr
    by_cases hal : w % 8 = 0
    · rw [if_pos hal] at hwr
      simp only [Option.map_some'] at hwr
      obtain rfl := (Option.some.inj hwr).symm
      have hj1 : w / 8 ≠ 0 := by omega
      have hj2 : w / 8 ≤ b.mid.length := by omega
      have hs : setWord b (w / 8) v =
          ⟨b.header, b.mid.set (w / 8 - 1) v, b.footer⟩ := by
        unfold setWord
        rw [if_neg hj1, if_pos hj2]
      rw [hs] at hc
      have hext : ext (⟨b.header, b.mid.set (w / 8 - 1) v, b.footer⟩ : Block)
          = ext b := by
        simp [ext]
      obtain ⟨mid2, hlen, ho⟩ := ih hc (by omega) (by rw [hext]; omega)
      exact ⟨mid2, by rw [hlen]; simp, ho⟩
    · rw [if_neg hal] at hwr
      exact absurd hwr (by simp)

theorem adjust_size_ge {n : Nat} (hn : n < U64 - 23) :
    n + 16 ≤ adjust_size n := by
  unfold adjust_size
  dsimp only
  set s := if n < MIN_PAYLOAD then MIN_PAYLOAD else n with hs
  have hsn : n ≤ s ∧ s < U64 - 23 ∧ MIN_PAYLOAD ≤ s := by
    rw [hs]
    split_ifs with h <;> simp only [MIN_PAYLOAD, U64] at * <;> omega
  clear hs
  clear_value s
  have hmod : (s + 7) % U64 = s + 7 := by
    apply Nat.mod_eq_of_lt
    simp only [U64] at *
    omega
  rw [hmod]
  rw [land_NOT7 (by simp only [U64] at *; omega : s + 7 < U64)]
  have hfin : (2 * WORD + 8 * ((s + 7) / 8)) % U64 =
      2 * WORD + 8 * ((s + 7) / 8) := by
    apply Nat.mod_eq_of_lt
    simp only [U64, WORD, MIN_PAYLOAD] at *
    omega
  rw [hfin]
  have h8 : s ≤ 8 * ((s + 7) / 8) := by omega
  have hns := hsn.1
  simp only [WORD]
  omega

theorem mem_resize_tagged {h : Heap} {p n : Nat} {r : Option Nat} {h1 : Heap}
    {c : Option (Nat × Nat)} (hwf : WF h)
    (hr : mem_resize h p n = .ok r h1 c) : tagged h1.blocks := by
  unfold mem_resize at hr
  by_cases h0 : n = 0 ∧ p ≠ 0
  · rw [if_pos h0] at hr
    rcases hmf : mem_free h p with - | - | h2 | -
    · rw [hmf] at hr
      exact absurd hr (by simp)
    · rw [hmf] at hr
      exact absurd hr (by simp)
    · rw [hmf] at hr
      simp only [ResizeResult.ok.injEq] at hr
      obtain ⟨-, h2eq, -⟩ := hr
      rw [← h2eq]
      exact mem_free_tagged hwf.1 hmf
    · rw [hmf] at hr
      exact absurd hr (by simp)
  · rw [if_neg h0] at hr
    rcases hma : mem_alloc h n with - | ⟨(- | np), h1'⟩
    · rw [hma] at hr
      exact absurd hr (by simp)
    · rw [hma] at hr
      simp only [ResizeResult.ok.injEq] at hr
      obtain ⟨-, h2eq, -⟩ := hr
      rw [← h2eq, mem_alloc_none_inv hma]
      exact hwf.1
    · rw [hma] at hr
      dsimp only at hr
      obtain ⟨ht1, hst, hpm, hss, pre, nb, post, hbsx, hnp, hszext⟩ :=
        mem_alloc_some_shape hwf hma
      split_ifs at hr with hp0
      · rcases hcw : copyWords h1'.blocks h1'.start p np (n / WORD) with - | bs2
        · rw [hcw] at hr
          exact absurd hr (by simp)
        rw [hcw] at hr
        dsimp only at hr
        have htbs2 : tagged bs2 := by
          by_cases hwrap : n < U64 - 23
          · have hge := adjust_size_ge hwrap
            rw [hbsx] at hcw ht1
            obtain ⟨mid2, hlen, ho⟩ := copyWords_payload hcw
              (by rw [hst, hnp]; simp only [WORD]; omega)
              (by
                rw [hst, hnp]
                have hd8 : 8 * (n / 8) ≤ n := by omega
                simp only [WORD]
                omega)
            rw [ho]
            rw [tagged_append] at ht1 ⊢
            refine ⟨ht1.1, ?_⟩
            have hc1 := tagged_cons.mp ht1.2
            rw [tagged_cons]
            have hexteq : ext (⟨nb.header, mid2, nb.footer⟩ : Block) = ext nb := by
              simp [ext, hlen]
            refine ⟨⟨?_, hc1.1.2⟩, hc1.2⟩
            rw [hexteq]
            exact hc1.1.1
          · exfalso
            simp only [WORD] at hcw
            simp only [U64] at hwrap
            have hn8 : n / 8 ≠ 0 := by omega
            rw [show n / 8 = (n / 8 - 1) + 1 by omega] at hcw
            have hb := copyWords_bound hcw
            have hwfb := hwf.2.2.2.2.2
            simp only [PTRDIFF_MAX] at hpm
            omega
        rcases hmf2 : mem_free ⟨h1'.start, bs2, h1'.freeList⟩ p with - | - | h2 | -
        · rw [hmf2] at hr
          exact absurd hr (by simp)
        · rw [hmf2] at hr
          exact absurd hr (by simp)
        · rw [hmf2] at hr
          simp only [ResizeResult.ok.injEq] at hr
          obtain ⟨-, h2eq, -⟩ := hr
          rw [← h2eq]
          exact mem_free_tagged htbs2 hmf2
        · rw [hmf2] at hr
          exact absurd hr (by simp)
      · simp only [ResizeResult.ok.injEq] at hr
        obtain ⟨-, h2eq, -⟩ := hr
        rw [← h2eq]
        exact ht1

/-! ### C5: the allocate/release round trip -/

theorem freeBytes_mk_cons (s : Nat) (x : Block) (bs : List Block)
    (fl : List Nat) :
    freeBytes ⟨s, x :: bs, fl⟩ =
      (if isFreeBlock x then ext x else 0) + freeBytes ⟨s, bs, fl⟩ := by
  simp only [freeBytes, List.filter_cons]
  split <;> simp

theorem freeBytes_mk_cons_free (s : Nat) (x : Block) (bs : List Block)
    (fl : List Nat) (hx : isFreeBlock x = true) :
    freeBytes ⟨s, x :: bs, fl⟩ = ext x + freeBytes ⟨s, bs, fl⟩ := by
  simp [freeBytes, List.filter_cons, hx]

theorem freeBytes_mk_cons_alloc (s : Nat) (x : Block) (bs : List Block)
    (fl : List Nat) (hx : isFreeBlock x = false) :
    freeBytes ⟨s, x :: bs, fl⟩ = freeBytes ⟨s, bs, fl⟩ := by
  simp [freeBytes, List.filter_cons, hx]

theorem freeBytes_mk_append (s : Nat) (xs ys : List Block) (fl : List Nat) :
    freeBytes ⟨s, xs ++ ys, fl⟩ = freeBytes ⟨s, xs, fl⟩ + freeBytes ⟨s, ys, fl⟩ := by
  simp [freeBytes, List.filter_append]

theorem freeBytes_indep (s s2 : Nat) (bs : List Block) (fl fl2 : List Nat) :
    freeBytes ⟨s, bs, fl⟩ = freeBytes ⟨s2, bs, fl2⟩ := rfl

set_option maxRecDepth 4000 in
/-- C5: on any well-formed heap state, an allocate that returns a pointer
followed immediately by a release of that pointer leaves the arena's total
free bytes and block count as they were: the miss path grows the arena and
the release shrinks it back; the hit path's split remainder is re-merged by
the right coalesce; the whole-block hit is simply cleared again. -/
theorem c5_alloc_release_round_trip (h : Heap) (n p : Nat) (h1 h2 : Heap)
    (hwf : WF h)
    (ha : mem_alloc h n = some (some p, h1))
    (hf : mem_free h1 p = .ok h2) :
    freeBytes h2 = freeBytes h ∧ blockCount h2 = blockCount h := by
  obtain ⟨size, hsz, hptr, hdvd, hcase⟩ := mem_alloc_some_inv hwf ha
  obtain ⟨hblk, hadj, hlast, hflc, hstart, hbound⟩ := hwf
  have hszU : size + 1 < U64 := by
    simp only [PTRDIFF_MAX, U64] at *
    omega
  rcases hcase with ⟨hfind, h16, hh1, hp⟩ |
    ⟨pre, b, post, hbs, hbf, h16, hsplit, hp, hh1⟩ |
    ⟨pre, b, post, hbs, hbf, hsle, hwhole, hp, hh1⟩
  · -- miss path: grow then shrink back
    obtain ⟨k, hk⟩ := hdvd
    have hk2 : 2 ≤ k := by omega
    have hdiv : size / 8 = k := by
      rw [hk, Nat.mul_div_cancel_left _ (by norm_num : 0 < 8)]
    have hef : ext (⟨size + 1, List.replicate (size / 8 - 2) 0, size + 1⟩ : Block)
        = size := by
      simp [ext, hdiv]
      omega
    have hmf := mem_free_noMerge_shrink h.start h.blocks
      ⟨size + 1, List.replicate (size / 8 - 2) 0, size + 1⟩ h.freeList
      (by rw [hef]) (by rw [hef]; exact hszU)
      (last_block_cases hblk hlast)
    rw [hh1, hp] at hf
    rw [hmf] at hf
    have h2eq : h2 = ⟨h.start, h.blocks, h.freeList⟩ := (FreeResult.ok.inj hf).symm
    rw [h2eq]
    exact ⟨rfl, rfl⟩
  · -- hit path with split: the freed block re-merges with the remainder
    obtain ⟨k, hk⟩ := hdvd
    have hk2 : 2 ≤ k := by omega
    have hdiv : size / 8 = k := by
      rw [hk, Nat.mul_div_cancel_left _ (by norm_num : 0 < 8)]
    have hextb8 : ext b = 8 * (2 + b.mid.length) := rfl
    have hklen : k + 2 ≤ b.mid.length := by
      simp only [MIN_SIZE] at hsplit
      omega
    set P1 : Block := ⟨size + 1, b.mid.take (size / 8 - 2), size + 1⟩ with hP1d
    set P2 : Block := ⟨ext b - size, b.mid.drop (size / 8), ext b - size⟩ with hP2d
    have hP1 : ext P1 = size := by
      simp only [hP1d, ext, List.length_take, hdiv]
      omega
    have hP2 : ext P2 = ext b - size := by
      simp only [hP2d, ext, List.length_drop, hdiv]
      omega
    have hbU : ext b < U64 := by
      have : ext b ≤ sizeSum h.blocks := by
        rw [hbs, sizeSum_append, sizeSum_cons]
        omega
      simp only [U64]
      omega
    have hpost : post ≠ [] := @free_not_last pre b post (hbs ▸ hlast) hbf
    have hMbig : ext P2 + ext P1 = ext b := by
      simp only [MIN_SIZE] at hsplit
      omega
    rcases left_neighbor_cases hbs hblk hadj hbf with hnil | ⟨pre2, q, hpre, hqh, hqf⟩
    · -- at the arena base
      subst hnil
      rw [hh1, hp] at hf
      simp only [sizeSum_nil, List.nil_append, Nat.add_zero] at hf
      have hmf := mem_free_right_at_base h.start P1 P2 post
        ((h.start + size) :: h.freeList.erase h.start)
        (by rw [hP1]) (by rw [hP2])
        (by rw [hP1, hP2]; simp only [U64] at *; omega) hpost
      rw [hmf] at hf
      have h2eq := (FreeResult.ok.inj hf).symm
      have hFB : freeBytes h = freeBytes ⟨h.start, b :: post, h.freeList⟩ := by
        rw [show b :: post = [] ++ b :: post from rfl, ← hbs]
      have hBC : blockCount h = blockCount ⟨h.start, b :: post, h.freeList⟩ := by
        rw [show b :: post = [] ++ b :: post from rfl, ← hbs]
      rw [h2eq, hFB, hBC]
      have hMe := merged_ext P1 P2 (ext P1) (ext P2 + ext P1) (ext P2)
      have hMfree : isFreeBlock
          (⟨ext P2 + ext P1, P1.mid ++ ext P1 :: ext P2 :: P2.mid,
            ext P2 + ext P1⟩ : Block) = true := by
        apply isFreeBlock_free
        rw [hMe]
        exact Nat.add_comm _ _
      constructor
      · rw [freeBytes_mk_cons_free _ _ _ _ hMfree,
          freeBytes_mk_cons_free _ _ _ _ (isFreeBlock_free hbf), hMe]
        have : freeBytes ⟨h.start,
            (post : List Block), (h.start :: ((h.start + size) ::
              h.freeList.erase h.start).erase (h.start + ext P1))⟩ =
            freeBytes ⟨h.start, post, h.freeList⟩ := freeBytes_indep _ _ _ _ _
        rw [this]
        omega
      · simp [blockCount]
    · -- allocated left neighbor: the lost-block path leaves the byte totals
      subst hpre
      have hszpre : sizeSum (pre2 ++ [q]) = sizeSum pre2 + ext q := by
        rw [sizeSum_append, sizeSum_cons, sizeSum_nil]
        omega
      rw [hh1, hp] at hf
      rw [show (pre2 ++ [q]) ++ P1 :: P2 :: post = pre2 ++ q :: P1 :: P2 :: post
        by simp, hszpre] at hf
      have hmf := mem_free_right_left_alloc h.start pre2 q P1 P2 post
        ((h.start + (sizeSum pre2 + ext q) + size) ::
          h.freeList.erase (h.start + (sizeSum pre2 + ext q)))
        (by rw [hP1]) hqh hqf (by rw [hP2])
        (by rw [hP1, hP2]; simp only [U64] at *; omega) hpost
      rw [hmf] at hf
      have h2eq := (FreeResult.ok.inj hf).symm
      have hFB : freeBytes h =
          freeBytes ⟨h.start, pre2 ++ q :: b :: post, h.freeList⟩ := by
        rw [show pre2 ++ q :: b :: post = (pre2 ++ [q]) ++ b :: post by simp,
          ← hbs]
      have hBC : blockCount h =
          blockCount ⟨h.start, pre2 ++ q :: b :: post, h.freeList⟩ := by
        rw [show pre2 ++ q :: b :: post = (pre2 ++ [q]) ++ b :: post by simp,
          ← hbs]
      rw [h2eq, hFB, hBC]
      have hMe := merged_ext P1 P2 (ext P1) (ext P2 + ext P1) (ext P2)
      have hMfree : isFreeBlock
          (⟨ext P2 + ext P1, P1.mid ++ ext P1 :: ext P2 :: P2.mid,
            ext P2 + ext P1⟩ : Block) = true := by
        apply isFreeBlock_free
        rw [hMe]
        exact Nat.add_comm _ _
      constructor
      · rw [freeBytes_mk_append, freeBytes_mk_append,
          freeBytes_mk_cons_alloc _ _ _ _ (isFreeBlock_alloc hqh),
          freeBytes_mk_cons_alloc _ _ _ _ (isFreeBlock_alloc hqh),
          freeBytes_mk_cons_free _ _ _ _ hMfree,
          freeBytes_mk_cons_free _ _ _ _ (isFreeBlock_free hbf), hMe]
        have h1' : freeBytes ⟨h.start, (pre2 : List Block),
            (((h.start + (sizeSum pre2 + ext q) + size) ::
              h.freeList.erase (h.start + (sizeSum pre2 + ext q))).erase
                (h.start + (sizeSum pre2 + ext q) + ext P1))⟩ =
            freeBytes ⟨h.start, pre2, h.freeList⟩ := freeBytes_indep _ _ _ _ _
        have h2' : freeBytes ⟨h.start, (post : List Block),
            (((h.start + (sizeSum pre2 + ext q) + size) ::
              h.freeList.erase (h.start + (sizeSum pre2 + ext q))).erase
                (h.start + (sizeSum pre2 + ext q) + ext P1))⟩ =
            freeBytes ⟨h.start, post, h.freeList⟩ := freeBytes_indep _ _ _ _ _
        rw [h1', h2']
        omega
      · simp only [blockCount, List.length_append, List.length_cons]
  · -- hit path without split: clearing the bit restores the old block
    have hbfull : b = ⟨ext b, b.mid, ext b⟩ := by
      have hft := (hblk b (by rw [hbs]; simp)).2
      cases b
      simp only [Block.mk.injEq]
      exact ⟨hbf, trivial, hft.trans hbf⟩
    have hpost : post ≠ [] := @free_not_last pre b post (hbs ▸ hlast) hbf
    rcases hpostc : post with - | ⟨c, post2⟩
    · exact absurd hpostc hpost
    subst hpostc
    have hcal : c.header = ext c + 1 := by
      have hpair : ¬(b.header = ext b ∧ c.header = ext c) := by
        apply @noAdjFreeB_pair pre b c post2
        rw [← hbs]
        exact hadj
      have hc := hblk c (by rw [hbs]; simp)
      rcases hc.1 with hfree | halloc
      · exact absurd ⟨hbf, hfree⟩ hpair
      · exact halloc
    have hbU : ext b + 1 < U64 := by
      have : ext b ≤ sizeSum h.blocks := by
        rw [hbs, sizeSum_append, sizeSum_cons]
        omega
      simp only [U64]
      omega
    have hleft := left_neighbor_cases hbs hblk hadj hbf
    rw [hh1, hp] at hf
    have hmf := mem_free_noMerge_noShrink h.start pre
      (⟨ext b + 1, b.mid, ext b + 1⟩ : Block) c post2
      (h.freeList.erase (h.start + sizeSum pre))
      (by simp [ext]) (by simp only [ext] at *; omega) hcal hleft
    rw [hmf] at hf
    have h2eq := (FreeResult.ok.inj hf).symm
    have hFB : freeBytes h =
        freeBytes ⟨h.start, pre ++ b :: c :: post2, h.freeList⟩ := by
      rw [← hbs]
    have hBC : blockCount h =
        blockCount ⟨h.start, pre ++ b :: c :: post2, h.freeList⟩ := by
      rw [← hbs]
    rw [h2eq, hFB, hBC]
    have hcl : (⟨ext (⟨ext b + 1, b.mid, ext b + 1⟩ : Block),
        (⟨ext b + 1, b.mid, ext b + 1⟩ : Block).mid,
        ext (⟨ext b + 1, b.mid, ext b + 1⟩ : Block)⟩ : Block) = b := by
      rw [hbfull]
      simp [ext]
    rw [hcl]
    exact ⟨rfl, rfl⟩

theorem c5_alloc_release_round_trip_witness :
    WF hInit ∧ mem_alloc hInit 24 = some (some 1032, hA1) ∧
      mem_free hA1 1032 = FreeResult.ok hInit ∧
      (freeBytes hInit = freeBytes hInit ∧ blockCount hInit = blockCount hInit) :=
  ⟨by unfold WF; decide, by rfl, by rfl,
    c5_alloc_release_round_trip hInit 24 1032 hA1 hInit (by unfold WF; decide)
      (by rfl) (by rfl)⟩

/-- C6: after every allocate, release, and resize operation started from a
well-formed heap, every block in the resulting arena has its footer word
equal to its header word, and that word holds the encoded value size with
the allocation bit (the header is ext b when free and ext b + 1 when
allocated). -/
theorem c6_header_equals_footer (h : Heap) (hwf : WF h) :
    (∀ n r h1, mem_alloc h n = some (r, h1) → tagged h1.blocks) ∧
    (∀ p h1, mem_free h p = FreeResult.ok h1 → tagged h1.blocks) ∧
    (∀ p n r h1 c, mem_resize h p n = ResizeResult.ok r h1 c →
      tagged h1.blocks) := by
  refine ⟨?_, ?_, ?_⟩
  · intro n r h1 ha
    rcases r with - | np
    · rw [mem_alloc_none_inv ha]
      exact hwf.1
    · exact (mem_alloc_some_shape hwf ha).1
  · intro p h1 hf
    exact mem_free_tagged hwf.1 hf
  · intro p n r h1 c hr
    exact mem_resize_tagged hwf hr

theorem c6_header_equals_footer_witness :
    WF hInit ∧
      ((∀ n r h1, mem_alloc hInit n = some (r, h1) → tagged h1.blocks) ∧
       (∀ p h1, mem_free hInit p = FreeResult.ok h1 → tagged h1.blocks) ∧
       (∀ p n r h1 c, mem_resize hInit p n = ResizeResult.ok r h1 c →
         tagged h1.blocks)) :=
  ⟨by unfold WF; decide, c6_header_equals_footer hInit (by unfold WF; decide)⟩

/-! ### The word left at a released block base -/

theorem getD_append_two (xs : List Nat) (y z : Nat) (w : List Nat) :
    (xs ++ y :: z :: w).getD (xs.length + 1) 0 = z := by
  induction xs with
  | nil => rfl
  | cons a as ih => simpa using ih

theorem clearAt_even {bs : List Block} {r size : Nat} {out : List Block}
    (h : clearAt bs r size = some out) :
    readWord out r = some size ∧ size % 2 = 0 := by
  unfold clearAt at h
  obtain ⟨pre, tail, tl2, hbs, hr, hf, ho⟩ := modAt_eq_some h
  rcases tail with - | ⟨b, rest⟩
  · exact absurd hf (by simp)
  dsimp only at hf
  split_ifs at hf with he
  obtain rfl := Option.some.inj hf
  subst ho
  constructor
  · rw [hr]
    exact readWord_base pre _ rest
  · have := ext_mod8 b
    omega

theorem rightPhase_even {start : Nat} {bs1 : List Block} {fl1 : List Nat}
    {r size : Nat} {out : List Block × List Nat × Bool × Nat}
    (h : rightPhase start bs1 fl1 r size = some out)
    {v : Nat} (hv : readWord bs1 r = some v) (hev : v % 2 = 0) :
    ∃ v2, readWord out.1 r = some v2 ∧ v2 % 2 = 0 := by
  unfold rightPhase at h
  split_ifs at h with h1
  · rcases hc : coalesce_right bs1 r with - | ⟨bs2, merged⟩
    · rw [hc] at h
      exact absurd h (by simp)
    rw [hc] at h
    dsimp only at h
    rcases hrw : readWord bs2 r with - | sz2
    · rw [hrw] at h
      exact absurd h (by simp)
    rw [hrw] at h
    dsimp only at h
    have hbs2 : ∃ v2, readWord bs2 r = some v2 ∧ v2 % 2 = 0 := by
      unfold coalesce_right at hc
      obtain ⟨pre, tail, tl2, hbs, hr, hf, ho⟩ := modAtP_eq_some hc
      rcases tail with - | ⟨b, tail1⟩
      · exact absurd hf (by simp)
      rcases tail1 with - | ⟨b2, rest⟩
      · exact absurd hf (by simp)
      subst hbs
      have hbv : b.header = v := by
        rw [hr, readWord_base] at hv
        exact Option.some.inj hv
      dsimp only at hf
      split_ifs at hf with hne hbit hmask
      · simp only [Option.some.injEq, Prod.mk.injEq] at hf
        obtain ⟨h5, -⟩ := hf
        have hbs2e : bs2 = pre ++
            (⟨(b2.header + b.header) % U64,
              b.mid ++ b.footer :: b2.header :: b2.mid,
              (b2.header + b.header) % U64⟩ : Block) :: rest := by
          rw [show bs2 = (bs2, merged).1 from rfl, ho, ← h5]
        refine ⟨(b2.header + b.header) % U64, ?_, ?_⟩
        · rw [hbs2e, hr]
          exact readWord_base pre _ rest
        · rw [Nat.and_one_is_mod] at hbit
          simp only [U64]
          omega
      · simp only [Option.some.injEq, Prod.mk.injEq] at hf
        obtain ⟨h5, -⟩ := hf
        have hbs2e : bs2 = pre ++ b :: b2 :: rest := by
          rw [show bs2 = (bs2, merged).1 from rfl, ho, ← h5]
        refine ⟨v, ?_, hev⟩
        rw [hbs2e, hr, readWord_base, hbv]
    rcases merged with - | eB
    · obtain rfl := (Option.some.inj h).symm
      exact hbs2
    · obtain rfl := (Option.some.inj h).symm
      exact hbs2
  · obtain rfl := (Option.some.inj h).symm
    exact ⟨v, hv, hev⟩

theorem leftPhase_even {start r : Nat} {bsx : List Block} {fl2 : List Nat}
    {co1 : Bool} {sz1 : Nat} {out : Nat × List Block × List Nat × Bool × Nat}
    (h : leftPhase start r bsx fl2 co1 sz1 = some out)
    {v : Nat} (hv : readWord bsx r = some v) (hev : v % 2 = 0) :
    out.1 ≤ r ∧ ∃ v2, readWord out.2.1 r = some v2 ∧ v2 % 2 = 0 := by
  unfold leftPhase at h
  by_cases h1 : 0 < r
  · rw [if_pos h1] at h
    dsimp only at h
    rcases hc : coalesce_left bsx r with - | ⟨r2, bs3, co2⟩
    · rw [hc] at h
      exact absurd h (by simp)
    rw [hc] at h
    dsimp only at h
    rcases hrw : readWord bs3 r2 with - | sz2
    · rw [hrw] at h
      exact absurd h (by simp)
    rw [hrw] at h
    dsimp only at h
    obtain rfl := (Option.some.inj h).symm
    show r2 ≤ r ∧ ∃ v2, readWord bs3 r = some v2 ∧ v2 % 2 = 0
    unfold coalesce_left at hc
    rcases hpsz : readWord bsx (r - WORD) with - | psz
    · rw [hpsz] at hc
      exact absurd hc (by simp)
    rw [hpsz] at hc
    dsimp only at hc
    split_ifs at hc with hb1 hb2
    · obtain ⟨pr, hpr, hmapc⟩ := Option.map_eq_some'.mp hc
      simp only [Prod.mk.injEq] at hmapc
      obtain ⟨hr2, hbs3, -⟩ := hmapc
      obtain ⟨pre, tail, tl2, hbs, hrr, hf, ho⟩ := modAtP_eq_some hpr
      rcases tail with - | ⟨p0, tail1⟩
      · exact absurd hf (by simp)
      rcases tail1 with - | ⟨b, rest⟩
      · exact absurd hf (by simp)
      dsimp only at hf
      split_ifs at hf with hep hmask
      simp only [Option.some.injEq, Prod.mk.injEq] at hf
      obtain ⟨h5, -⟩ := hf
      have hrq : r = sizeSum pre + ext p0 := by
        rw [hep]
        omega
      subst hbs
      have hbv : b.header = v := by
        have hli : pre ++ p0 :: b :: rest = (pre ++ [p0]) ++ b :: rest := by
          simp
        have hsz : sizeSum (pre ++ [p0]) = sizeSum pre + ext p0 := by
          rw [sizeSum_append, sizeSum_cons, sizeSum_nil]
          omega
        rw [hli, hrq, ← hsz, readWord_base] at hv
        exact Option.some.inj hv
      refine ⟨by omega, b.header, ?_, by omega⟩
      have hbs3e : bs3 = pre ++
          (⟨(psz + b.header) % U64,
            p0.mid ++ p0.footer :: b.header :: b.mid,
            (psz + b.header) % U64⟩ : Block) :: rest := by
        rw [← hbs3, show pr.1 = (pr.1, pr.2).1 from rfl]
        rw [show (pr.1, pr.2) = pr from rfl, ho, ← h5]
      have hplen : ext p0 = 8 * ((p0.mid.length + 1) + 1) := by
        simp only [ext]
        omega
      rw [hbs3e, hrq, hplen,
        readWord_mid pre _ rest (p0.mid.length + 1) (by simp)]
      rw [getD_append_two]
    · simp only [Option.some.injEq, Prod.mk.injEq] at hc
      obtain ⟨hcr, hcb, -⟩ := hc
      rw [← hcr, ← hcb]
      exact ⟨le_refl r, v, hv, hev⟩
  · rw [if_neg h1] at h
    obtain rfl := (Option.some.inj h).symm
    exact ⟨le_refl r, v, hv, hev⟩

theorem finishPhase_even {start r3 : Nat} {bs3 : List Block} {fl3 : List Nat}
    {co : Bool} {sz3 : Nat} {h1 : Heap}
    (h : finishPhase start r3 bs3 fl3 co sz3 = .ok h1)
    {r v : Nat} (hr3 : r3 ≤ r) (hv : readWord bs3 r = some v)
    (hev : v % 2 = 0) :
    h1.start = start ∧
      (sizeSum h1.blocks ≤ r ∨
        ∃ v2, readWord h1.blocks r = some v2 ∧ v2 % 2 = 0) := by
  unfold finishPhase at h
  dsimp only at h
  by_cases h2 : r3 + sz3 = sizeSum bs3
  · rw [if_pos h2] at h
    rcases hs : shrinkAt bs3 r3 sz3 with - | bs4
    · rw [hs] at h
      exact absurd h (by simp)
    rw [hs] at h
    simp only [FreeResult.ok.injEq] at h
    rw [← h]
    refine ⟨rfl, Or.inl ?_⟩
    unfold shrinkAt at hs
    obtain ⟨pre, tail, tl2, hbs, hr, hf, ho⟩ := modAt_eq_some hs
    rcases tail with - | ⟨b, rest⟩
    · exact absurd hf (by simp)
    rcases rest with - | ⟨c, rest2⟩
    · dsimp only at hf
      split_ifs at hf with he
      obtain rfl := (Option.some.inj hf).symm
      show sizeSum bs4 ≤ r
      rw [ho, List.append_nil]
      omega
    · exact absurd hf (by simp)
  · rw [if_neg h2] at h
    simp only [FreeResult.ok.injEq] at h
    rw [← h]
    exact ⟨rfl, Or.inr ⟨v, hv, hev⟩⟩

theorem mem_free_second {h : Heap} {p : Nat} {h1 : Heap}
    (hf : mem_free h p = .ok h1) :
    h1.start = h.start ∧ h.start + WORD ≤ p ∧
      (heapEnd h1 ≤ p ∨
        ∃ v, readWord h1.blocks (p - WORD - h.start) = some v ∧ v % 2 = 0) := by
  unfold mem_free at hf
  split_ifs at hf with h1' h2'
  dsimp only at hf
  rcases hrw : readWord h.blocks (p - WORD - h.start) with - | hd
  · rw [hrw] at hf
    exact absurd hf (by simp)
  rw [hrw] at hf
  dsimp only at hf
  split_ifs at hf with h3'
  rcases hcl : clearAt h.blocks (p - WORD - h.start) (hd &&& NOT1) with - | bs1
  · rw [hcl] at hf
    exact absurd hf (by simp)
  rw [hcl] at hf
  dsimp only at hf
  obtain ⟨hcv, hcev⟩ := clearAt_even hcl
  unfold freePhase2 at hf
  rcases hr : rightPhase h.start bs1 h.freeList (p - WORD - h.start)
      (hd &&& NOT1) with - | ⟨bs2, fl2, co1, sz1⟩
  · rw [hr] at hf
    exact absurd hf (by simp)
  rw [hr] at hf
  dsimp only at hf
  rcases hl : leftPhase h.start (p - WORD - h.start) bs2 fl2 co1 sz1 with
    - | ⟨r3, bs3, fl3, co, sz3⟩
  · rw [hl] at hf
    exact absurd hf (by simp)
  rw [hl] at hf
  dsimp only at hf
  obtain ⟨v2, hv2, hev2⟩ := rightPhase_even hr hcv hcev
  obtain ⟨hr3le, v3, hv3, hev3⟩ := leftPhase_even hl hv2 hev2
  obtain ⟨hst, hdisj⟩ := finishPhase_even hf hr3le hv3 hev3
  push_neg at h1'
  have hW : WORD = 8 := rfl
  refine ⟨hst, by omega, ?_⟩
  rcases hdisj with hend | hword
  · left
    unfold heapEnd
    rw [hst]
    omega
  · right
    exact hword

/-- C7 (amended): a successful release of a pointer is itself not fatal, and
a second release of the same pointer with no intervening allocation is always
fatal; the detected condition is double-free when the pointer still lies
strictly below the break left by the first release, and invalid-pointer when
the first release shrank the arena so that the pointer sits at or beyond the
break. -/
theorem c7_release_twice (h : Heap) (p : Nat) (h1 : Heap)
    (hf : mem_free h p = .ok h1) :
    mem_free h p ≠ .invalidPtr ∧ mem_free h p ≠ .doubleFree ∧
      (p < heapEnd h1 → mem_free h1 p = .doubleFree) ∧
      (heapEnd h1 ≤ p → mem_free h1 p = .invalidPtr) := by
  obtain ⟨hst, hge, hdisj⟩ := mem_free_second hf
  have hW : WORD = 8 := rfl
  refine ⟨by rw [hf]; simp, by rw [hf]; simp, ?_, ?_⟩
  · intro hlt
    rcases hdisj with hend | ⟨v, hword, hev⟩
    · omega
    show (if p ≤ h1.start ∨ heapEnd h1 ≤ p then FreeResult.invalidPtr
      else if p < h1.start + WORD then FreeResult.err
      else match readWord h1.blocks (p - WORD - h1.start) with
        | none => FreeResult.err
        | some hd =>
          if hd &&& 1 = 0 then FreeResult.doubleFree
          else match clearAt h1.blocks (p - WORD - h1.start) (hd &&& NOT1) with
            | none => FreeResult.err
            | some bs1 =>
              freePhase2 h1.start bs1 h1.freeList (p - WORD - h1.start)
                (hd &&& NOT1)) = FreeResult.doubleFree
    rw [if_neg (by rw [hst]; push_neg; omega), if_neg (by rw [hst]; omega),
      hst, hword]
    dsimp only
    rw [if_pos (by rw [Nat.and_one_is_mod]; omega)]
  · intro hle
    show (if p ≤ h1.start ∨ heapEnd h1 ≤ p then FreeResult.invalidPtr
      else if p < h1.start + WORD then FreeResult.err
      else match readWord h1.blocks (p - WORD - h1.start) with
        | none => FreeResult.err
        | some hd =>
          if hd &&& 1 = 0 then FreeResult.doubleFree
          else match clearAt h1.blocks (p - WORD - h1.start) (hd &&& NOT1) with
            | none => FreeResult.err
            | some bs1 =>
              freePhase2 h1.start bs1 h1.freeList (p - WORD - h1.start)
                (hd &&& NOT1)) = FreeResult.invalidPtr
    rw [if_pos (Or.inr hle)]

theorem c7_release_twice_witness :
    mem_free ⟨1024, [⟨41, [0, 0, 0], 41⟩, ⟨41, [0, 0, 0], 41⟩], []⟩ 1032 =
      FreeResult.ok ⟨1024, [⟨40, [0, 0, 0], 40⟩, ⟨41, [0, 0, 0], 41⟩], [1024]⟩ ∧
      1032 < heapEnd ⟨1024, [⟨40, [0, 0, 0], 40⟩, ⟨41, [0, 0, 0], 41⟩], [1024]⟩ ∧
      mem_free ⟨1024, [⟨40, [0, 0, 0], 40⟩, ⟨41, [0, 0, 0], 41⟩], [1024]⟩ 1032 =
        FreeResult.doubleFree :=
  ⟨by decide, by decide,
    (c7_release_twice ⟨1024, [⟨41, [0, 0, 0], 41⟩, ⟨41, [0, 0, 0], 41⟩], []⟩
      1032 ⟨1024, [⟨40, [0, 0, 0], 40⟩, ⟨41, [0, 0, 0], 41⟩], [1024]⟩
      (by decide)).2.2.1 (by decide)⟩

/-- C9: on a well-formed heap the best-fit search completes its full scan of
the free list and returns the qualifying free block of smallest header among
those whose header is at least the requested size, ties resolved in favor of
the first qualifying block in scan order from the head; it returns no block
exactly when the list is empty or nothing qualifies. -/
theorem c9_best_fit_search (h : Heap) (size : Nat) (hwf : WF h) :
    ∃ res, find_free_block h size = some res ∧
      (res = none ↔
        ∀ a ∈ h.freeList, (readWord h.blocks (a - h.start)).getD 0 < size) ∧
      (∀ w hw, res = some (w, hw) →
        w ∈ h.freeList ∧
        hw = (readWord h.blocks (w - h.start)).getD 0 ∧ size ≤ hw ∧
        (∀ b ∈ h.freeList,
          size ≤ (readWord h.blocks (b - h.start)).getD 0 →
          hw ≤ (readWord h.blocks (b - h.start)).getD 0) ∧
        ∃ l1 l2, h.freeList = l1 ++ w :: l2 ∧
          ∀ b ∈ l1, size ≤ (readWord h.blocks (b - h.start)).getD 0 →
            hw < (readWord h.blocks (b - h.start)).getD 0) := by
  have heq := ffb_loop_eq h.blocks h.start size
    (fun x => (readWord h.blocks (x - h.start)).getD 0) h.freeList none
    (wf_find_f hwf)
  rcases hbf : bestFit (fun x => (readWord h.blocks (x - h.start)).getD 0)
      size h.freeList with - | w
  · refine ⟨none, ?_, ?_, ?_⟩
    · unfold find_free_block
      rw [heq, hbf]
      rfl
    · simp only [true_iff]
      exact bestFit_none_forall _ size h.freeList hbf
    · intro w hw hcon
      exact absurd hcon (by simp)
  · obtain ⟨hq, l1, l2, hfl, hmin, hstrict⟩ :=
      bestFit_some (fun x => (readWord h.blocks (x - h.start)).getD 0)
        size h.freeList w hbf
    have hmem : w ∈ h.freeList := by
      rw [hfl]
      simp
    refine ⟨some (w, (readWord h.blocks (w - h.start)).getD 0), ?_, ?_, ?_⟩
    · unfold find_free_block
      rw [heq, hbf, mergeBest_none_some]
    · constructor
      · intro hcon
        exact absurd hcon (by simp)
      · intro hall
        have := hall w hmem
        omega
    · intro w' hw' heqq
      simp only [Option.some.injEq, Prod.mk.injEq] at heqq
      obtain ⟨hw1, hw2⟩ := heqq
      subst hw1
      subst hw2
      exact ⟨hmem, rfl, hq, hmin, l1, l2, hfl, hstrict⟩

theorem c9_best_fit_search_witness :
    WF hInit ∧
      ∃ res, find_free_block hInit 24 = some res ∧
        (res = none ↔
          ∀ a ∈ hInit.freeList,
            (readWord hInit.blocks (a - hInit.start)).getD 0 < 24) ∧
        (∀ w hw, res = some (w, hw) →
          w ∈ hInit.freeList ∧
          hw = (readWord hInit.blocks (w - hInit.start)).getD 0 ∧ 24 ≤ hw ∧
          (∀ b ∈ hInit.freeList,
            24 ≤ (readWord hInit.blocks (b - hInit.start)).getD 0 →
            hw ≤ (readWord hInit.blocks (b - hInit.start)).getD 0) ∧
          ∃ l1 l2, hInit.freeList = l1 ++ w :: l2 ∧
            ∀ b ∈ l1, 24 ≤ (readWord hInit.blocks (b - hInit.start)).getD 0 →
              hw < (readWord hInit.blocks (b - hInit.start)).getD 0) :=
  ⟨by unfold WF; decide, c9_best_fit_search hInit 24 (by unfold WF; decide)⟩

/-! ### Claim theorems on concrete runs -/

/-- C1: free-list completeness fails on the code.  Allocate four 24-byte
blocks (payloads 1032, 1072, 1112, 1152), release 1112, then release 1072.
The released block merges with its free right neighbor; coalesce_right
inserts the merged block into the free list before the left attempt has
resolved, mem_free removes it again ahead of the left attempt, and since the
left neighbor is allocated nothing re-inserts it: the final arena has a
block with a clear allocation bit at 1064 while the free list is empty. -/
theorem c1_merged_block_lost_from_free_list :
    mem_alloc hInit 24 = some (some 1032, hA1) ∧
    mem_alloc hA1 24 = some (some 1072, hA2) ∧
    mem_alloc hA2 24 = some (some 1112, hA3) ∧
    mem_alloc hA3 24 = some (some 1152, hA4) ∧
    mem_free hA4 1112 = .ok hB5 ∧
    mem_free hB5 1072 = .ok hB6 ∧
    freeBlockAddrs hB6 = [1064] ∧
    hB6.freeList = [] := by decide

/-- C2: mem_resize copies size bytes, the new size, not
min(old_usable, new_size).  With an old block of 16 usable bytes resized to
100, the memcpy source interval is the 100 bytes from 1032, running 84 bytes
past the old payload end 1048; the old block's footer value 33 lands inside
the new payload. -/
theorem c2_resize_copies_new_size_bytes :
    mem_alloc hInit 9 = some (some 1032, rs1) ∧
    mem_alloc rs1 24 = some (some 1064, rs2) ∧
    usable ⟨33, [0, 0], 33⟩ = 16 ∧
    mem_resize rs2 1032 100 = .ok (some 1104) rs3 (some (1032, 100)) ∧
    1032 + 100 = 1048 + 84 ∧
    (rs3.blocks.getD 2 ⟨0, [], 0⟩).mid.getD 2 0 = 33 := by decide

/-- C3: mem_alloc_clear performs no overflow check.  With count 3 and
element size 6148914691236517208 the product is 2^64 + 8, not representable
in size_t; the code computes it modulo 2^64 (giving 8), allocates a 32-byte
block and zeroes only 8 bytes, instead of failing with out-of-memory. -/
theorem c3_alloc_clear_product_wraps :
    3 * 6148914691236517208 = 2 ^ 64 + 8 ∧
    mem_alloc_clear hInit 3 6148914691236517208 =
      some (some 1032, (⟨1024, [⟨33, [0, 0], 33⟩], []⟩ : Heap), some (1032, 8)) := by
  decide

/-- C4: the overflow guard of mem_alloc does not catch requests for which
adjust_size itself wraps.  adjust_size (2^64 - 1) wraps to 16, which passes
the PTRDIFF_MAX test, and the request proceeds to arena growth and returns a
pointer to a 16-byte block (0 usable bytes) instead of failing with
out-of-memory and no state change. -/
theorem c4_adjust_size_wrap_escapes_guard :
    adjust_size (2 ^ 64 - 1) = 16 ∧
    mem_alloc hInit (2 ^ 64 - 1) =
      some (some 1032, (⟨1024, [⟨17, [], 17⟩], []⟩ : Heap)) := by decide

/-- C7 counterexample: for a pointer whose first release shrinks the arena
(the block was the trailing block), the second release of the same pointer
raises the fatal invalid-pointer condition, not the fatal double-free
condition: after the shrink the pointer is at or beyond heap_end. -/
theorem c7_second_free_after_shrink_is_invalid_pointer :
    mem_alloc hInit 24 = some (some 1032, hA1) ∧
    mem_free hA1 1032 = .ok (initHeap 1024) ∧
    mem_free (initHeap 1024) 1032 = .invalidPtr ∧
    FreeResult.invalidPtr ≠ FreeResult.doubleFree := by decide

/-- C8: releasing any address that does not lie strictly inside the open
interval (heap_start, heap_end) — below heap_start, equal to heap_start, at
or above heap_end, or outside the arena entirely — raises the fatal
invalid-pointer condition; the result carries no mutated state, since the
check precedes every write. -/
theorem c8_invalid_pointer_fatal (h : Heap) (p : Nat)
    (hp : p ≤ h.start ∨ heapEnd h ≤ p) :
    mem_free h p = .invalidPtr := by
  unfold mem_free
  rw [if_pos hp]

theorem c8_invalid_pointer_fatal_witness :
    ((1024 ≤ hInit.start ∨ heapEnd hInit ≤ 1024) ∧
      mem_free hInit 1024 = .invalidPtr) :=
  ⟨by decide, c8_invalid_pointer_fatal hInit 1024 (by decide)⟩

/-- C10: releasing NULL raises the fatal invalid-pointer condition in every
state, including before the first allocation, because NULL never exceeds
heap_start, so the strict lower-bound test fails. -/
theorem c10_free_null_fatal (h : Heap) : mem_free h 0 = .invalidPtr := by
  unfold mem_free
  rw [if_pos (Or.inl (Nat.zero_le _))]

end MemAlloc
